import Mathlib

/-!
Verification of the co-purchase graph core of the market-basket analysis
repository.

The Python sources are shallowly embedded as follows.

* A Python `dict` (which preserves insertion order: updating an existing key
  keeps its position, inserting a fresh key appends it at the end) is embedded
  as an association list `List (κ × β)` together with the operations `alookup`
  (first match, models `d.get(k)` / `k in d`) and `aset` (in-place update or
  append, models `d[k] = v`).
* `CoPurchaseGraph._adjacency : Dict[str, Dict[str, int]]` becomes
  `Graph := List (String × NbrMap)` with `NbrMap := List (String × Int)`.
* Python `int` becomes `Int`; counts that the code divides with `//` on
  non-negative values use `Nat` where the code guarantees non-negativity
  (`num_edges` sums list lengths).
* Python string comparison `a < b` (lexicographic on code points) is embedded
  as the executable `pyLt`, proved equivalent to Lean's `<` on `String`
  (`pyLt_iff`).
* Python slicing `xs[:k]` for an arbitrary integer `k` is embedded as
  `pyTake` (negative `k` keeps all but the last `|k|` elements).
* Python's built-in stable sort `list.sort(key=..., reverse=True)` /
  `sorted(..., reverse=True)` is embedded as the stable descending insertion
  sort `pySortDescBy` (stability and the descending comparison on the key are
  the documented semantics of the built-in sort; a stable sort is unique, so
  insertion sort is a faithful model).
* Graphs produced by the class `CoPurchaseGraph` are exactly those reachable
  from the empty graph by `add_item` / `add_co_purchase` calls; this is
  embedded by the operation type `Op` and `buildG : List Op → Graph`.
-/

/-! ## Python string comparison -/

/-- Lexicographic comparison of character lists by code point; this is the
comparison Python performs on `str` values. -/
def listCharLt : List Char → List Char → Bool
  | [], [] => false
  | [], _ :: _ => true
  | _ :: _, [] => false
  | a :: as, b :: bs => if a < b then true else if b < a then false else listCharLt as bs

/-- Python's `a < b` on strings. -/
def pyLt (a b : String) : Bool := listCharLt a.data b.data

theorem listCharLt_iff : ∀ as bs : List Char, listCharLt as bs = true ↔ as < bs := by
  intro as
  induction as with
  | nil =>
    intro bs
    cases bs with
    | nil =>
      constructor
      · intro h; exact absurd h (by simp [listCharLt])
      · intro h; cases h
    | cons b bs =>
      constructor
      · intro _; exact List.Lex.nil
      · intro _; rfl
  | cons a as ih =>
    intro bs
    cases bs with
    | nil =>
      constructor
      · intro h; exact absurd h (by simp [listCharLt])
      · intro h; cases h
    | cons b bs =>
      simp only [listCharLt]
      rcases lt_trichotomy a b with h | h | h
      · simp only [if_pos h]
        constructor
        · intro _; exact List.Lex.rel h
        · intro _; trivial
      · subst h
        simp only [if_neg (lt_irrefl a)]
        constructor
        · intro hlt; exact List.Lex.cons ((ih bs).mp hlt)
        · intro hlt
          cases hlt with
          | rel hr => exact absurd hr (lt_irrefl a)
          | cons hc => exact (ih bs).mpr hc
      · have h1 : ¬ a < b := not_lt_of_gt h
        simp only [if_neg h1, if_pos h]
        constructor
        · intro hf; cases hf
        · intro hlt
          cases hlt with
          | rel hr => exact absurd hr h1
          | cons hc => exact absurd h (lt_irrefl _)

theorem pyLt_iff (a b : String) : pyLt a b = true ↔ a < b := by
  rw [String.lt_iff_toList_lt]
  exact listCharLt_iff a.data b.data

/-! ## Association lists: the embedding of Python dicts -/

/-- First-match lookup in an association list: `d.get(k)` on a Python dict. -/
def alookup {κ β : Type} [DecidableEq κ] : List (κ × β) → κ → Option β
  | [], _ => none
  | p :: rest, k => if k = p.1 then some p.2 else alookup rest k

/-- Update of an association list: `d[k] = v` on a Python dict.  An existing
key keeps its position; a fresh key is appended at the end. -/
def aset {κ β : Type} [DecidableEq κ] : List (κ × β) → κ → β → List (κ × β)
  | [], k, v => [(k, v)]
  | p :: rest, k, v => if k = p.1 then (k, v) :: rest else p :: aset rest k v

theorem alookup_mem {κ β : Type} [DecidableEq κ] :
    ∀ (l : List (κ × β)) (k : κ) (v : β), alookup l k = some v → (k, v) ∈ l := by
  intro l
  induction l with
  | nil => intro k v h; simp [alookup] at h
  | cons p rest ih =>
    intro k v h
    rw [alookup] at h
    by_cases hk : k = p.1
    · rw [if_pos hk] at h
      injection h with hv
      rw [List.mem_cons]
      left
      rw [hk, ← hv]
    · rw [if_neg hk] at h
      exact List.mem_cons_of_mem _ (ih k v h)

theorem alookup_isSome_iff_mem {κ β : Type} [DecidableEq κ] :
    ∀ (l : List (κ × β)) (k : κ), (alookup l k).isSome = true ↔ k ∈ l.map Prod.fst := by
  intro l
  induction l with
  | nil => intro k; simp [alookup]
  | cons p rest ih =>
    intro k
    rw [alookup]
    by_cases hk : k = p.1
    · simp [hk]
    · rw [if_neg hk]
      simp [hk, ih k]

theorem alookup_eq_none_iff {κ β : Type} [DecidableEq κ] (l : List (κ × β)) (k : κ) :
    alookup l k = none ↔ k ∉ l.map Prod.fst := by
  rw [← alookup_isSome_iff_mem]
  cases alookup l k <;> simp

theorem alookup_of_mem_nodup {κ β : Type} [DecidableEq κ] :
    ∀ (l : List (κ × β)), (l.map Prod.fst).Nodup → ∀ k v, (k, v) ∈ l →
      alookup l k = some v := by
  intro l
  induction l with
  | nil => intro _ k v h; simp at h
  | cons p rest ih =>
    intro hnd k v h
    obtain ⟨pk, pv⟩ := p
    simp only [List.map_cons, List.nodup_cons] at hnd
    rw [List.mem_cons] at h
    rcases h with h | h
    · injection h with h1 h2
      subst h1
      subst h2
      rw [alookup, if_pos rfl]
    · have hk : k ≠ pk := by
        intro hcontra
        apply hnd.1
        rw [← hcontra]
        exact List.mem_map_of_mem Prod.fst h
      rw [alookup, if_neg hk]
      exact ih hnd.2 k v h

theorem alookup_append_of_some {κ β : Type} [DecidableEq κ] :
    ∀ (l l' : List (κ × β)) (k : κ) (v : β), alookup l k = some v →
      alookup (l ++ l') k = some v := by
  intro l l' k v
  induction l with
  | nil => intro h; simp [alookup] at h
  | cons p rest ih =>
    intro h
    rw [alookup] at h
    rw [List.cons_append, alookup]
    by_cases hk : k = p.1
    · rw [if_pos hk] at h ⊢; exact h
    · rw [if_neg hk] at h ⊢; exact ih h

theorem alookup_append_of_none {κ β : Type} [DecidableEq κ] :
    ∀ (l l' : List (κ × β)) (k : κ), alookup l k = none →
      alookup (l ++ l') k = alookup l' k := by
  intro l l' k
  induction l with
  | nil => intro _; rfl
  | cons p rest ih =>
    intro h
    rw [alookup] at h
    rw [List.cons_append, alookup]
    by_cases hk : k = p.1
    · rw [if_pos hk] at h; cases h
    · rw [if_neg hk] at h ⊢; exact ih h

theorem alookup_aset_self {κ β : Type} [DecidableEq κ] :
    ∀ (l : List (κ × β)) (k : κ) (v : β), alookup (aset l k v) k = some v := by
  intro l k v
  induction l with
  | nil => simp [aset, alookup]
  | cons p rest ih =>
    rw [aset]
    by_cases hk : k = p.1
    · rw [if_pos hk, alookup, if_pos rfl]
    · rw [if_neg hk, alookup, if_neg hk]
      exact ih

theorem alookup_aset_ne {κ β : Type} [DecidableEq κ] :
    ∀ (l : List (κ × β)) (k k' : κ) (v : β), k' ≠ k →
      alookup (aset l k v) k' = alookup l k' := by
  intro l k k' v hne
  induction l with
  | nil => simp [aset, alookup, hne]
  | cons p rest ih =>
    rw [aset]
    by_cases hk : k = p.1
    · rw [if_pos hk]
      have hne' : k' ≠ p.1 := by rw [← hk]; exact hne
      simp [alookup, hne, hne']
    · rw [if_neg hk]
      simp only [alookup]
      by_cases hk' : k' = p.1
      · simp [hk']
      · simp [hk', ih]

theorem mem_aset {κ β : Type} [DecidableEq κ] :
    ∀ (l : List (κ × β)) (k : κ) (v : β) (p : κ × β), p ∈ aset l k v →
      p = (k, v) ∨ p ∈ l := by
  intro l k v p
  induction l with
  | nil => intro h; simp [aset] at h; left; exact h
  | cons q rest ih =>
    intro h
    rw [aset] at h
    by_cases hk : k = q.1
    · rw [if_pos hk] at h
      rw [List.mem_cons] at h
      rcases h with h | h
      · left; exact h
      · right; exact List.mem_cons_of_mem _ h
    · rw [if_neg hk] at h
      rw [List.mem_cons] at h
      rcases h with h | h
      · right; rw [h]; exact List.mem_cons_self _ _
      · rcases ih h with h' | h'
        · left; exact h'
        · right; exact List.mem_cons_of_mem _ h'

theorem keys_aset_present {κ β : Type} [DecidableEq κ] :
    ∀ (l : List (κ × β)) (k : κ) (v : β), k ∈ l.map Prod.fst →
      (aset l k v).map Prod.fst = l.map Prod.fst := by
  intro l k v
  induction l with
  | nil => intro h; simp at h
  | cons p rest ih =>
    intro h
    rw [aset]
    by_cases hk : k = p.1
    · rw [if_pos hk]
      simp [hk]
    · rw [if_neg hk]
      simp only [List.map_cons, List.mem_cons] at h ⊢
      rcases h with h | h
      · exact absurd h hk
      · rw [ih h]

theorem keys_aset_absent {κ β : Type} [DecidableEq κ] :
    ∀ (l : List (κ × β)) (k : κ) (v : β), k ∉ l.map Prod.fst →
      (aset l k v).map Prod.fst = l.map Prod.fst ++ [k] := by
  intro l k v
  induction l with
  | nil => intro _; simp [aset]
  | cons p rest ih =>
    intro h
    simp only [List.map_cons, List.mem_cons] at h
    push_neg at h
    rw [aset, if_neg h.1]
    simp only [List.map_cons, List.cons_append, List.cons.injEq, true_and]
    exact ih h.2

/-! ## The co-purchase graph (src/copurchase_graph.py) -/

/-- The inner dict of `CoPurchaseGraph._adjacency`: neighbour label to weight. -/
abbrev NbrMap := List (String × Int)

/-- `CoPurchaseGraph._adjacency`: item to its neighbour map. -/
abbrev Graph := List (String × NbrMap)

/-- `CoPurchaseGraph.add_item`. -/
def add_item (g : Graph) (item : String) : Graph :=
  if (alookup g item).isSome then g else g ++ [(item, [])]

/-- One weight increment `d[k] = d.get(k, 0) + 1` on an inner dict. -/
def bump (d : NbrMap) (k : String) : NbrMap := aset d k ((alookup d k).getD 0 + 1)

/-- `CoPurchaseGraph.add_co_purchase`: no-op on a self pair, otherwise ensures
both nodes exist and increments the weight in both directions. -/
def add_co_purchase (g : Graph) (item1 item2 : String) : Graph :=
  if item1 = item2 then g
  else
    let g2 := add_item (add_item g item1) item2
    let g3 := aset g2 item1 (bump ((alookup g2 item1).getD []) item2)
    aset g3 item2 (bump ((alookup g3 item2).getD []) item1)

/-- `CoPurchaseGraph.neighbours`: `self._adjacency.get(item, {})`. -/
def neighbours (g : Graph) (item : String) : NbrMap := (alookup g item).getD []

/-- `CoPurchaseGraph.edge_weight`: 0 when `item1` is absent, else
`self._adjacency[item1].get(item2, 0)`. -/
def edge_weight (g : Graph) (item1 item2 : String) : Int :=
  match alookup g item1 with
  | none => 0
  | some d => (alookup d item2).getD 0

/-- `CoPurchaseGraph.has_item`. -/
def has_item (g : Graph) (item : String) : Bool := (alookup g item).isSome

/-- `CoPurchaseGraph.has_edge`: false when `item1` is absent, else
`item2 in self._adjacency[item1]`. -/
def has_edge (g : Graph) (item1 item2 : String) : Bool :=
  match alookup g item1 with
  | none => false
  | some d => (alookup d item2).isSome

/-- `CoPurchaseGraph.num_items`. -/
def num_items (g : Graph) : Nat := g.length

/-- `CoPurchaseGraph.num_edges`: sum of the sizes of all inner dicts, floor
divided by 2. -/
def num_edges (g : Graph) : Nat := (g.map (fun p => p.2.length)).sum / 2

/-- Build operations available on a `CoPurchaseGraph`. -/
inductive Op : Type
  | addItem (item : String) : Op
  | addCo (item1 item2 : String) : Op

/-- Apply one mutating call. -/
def applyOp (g : Graph) : Op → Graph
  | Op.addItem item => add_item g item
  | Op.addCo a b => add_co_purchase g a b

/-- The graph reached from a fresh `CoPurchaseGraph()` by a call sequence. -/
def buildG (ops : List Op) : Graph := ops.foldl applyOp []

/-! ### Effect of the mutating calls on the observable queries -/

theorem edge_weight_of_lookup (g : Graph) (a b : String) :
    edge_weight g a b = (alookup ((alookup g a).getD []) b).getD 0 := by
  rw [edge_weight]
  cases alookup g a with
  | none => simp [alookup]
  | some d => simp

theorem alookup_add_item (g : Graph) (x a : String) :
    alookup (add_item g x) a =
      if a = x then some ((alookup g x).getD []) else alookup g a := by
  rw [add_item]
  by_cases hx : (alookup g x).isSome
  · rw [if_pos hx]
    by_cases hax : a = x
    · subst hax
      rw [if_pos rfl]
      cases h : alookup g a with
      | none => rw [h] at hx; simp at hx
      | some d => simp
    · rw [if_neg hax]
  · rw [if_neg hx]
    by_cases hax : a = x
    · subst hax
      rw [if_pos rfl]
      cases h : alookup g a with
      | none => rw [alookup_append_of_none g _ a h]; simp [alookup]
      | some d => rw [h] at hx; simp at hx
    · rw [if_neg hax]
      cases h : alookup g a with
      | none =>
        rw [alookup_append_of_none g _ a h]
        simp [alookup, hax]
      | some d => exact alookup_append_of_some g _ a d h

theorem edge_weight_add_item (g : Graph) (x a b : String) :
    edge_weight (add_item g x) a b = edge_weight g a b := by
  rw [edge_weight_of_lookup, edge_weight_of_lookup, alookup_add_item]
  by_cases hax : a = x
  · subst hax
    rw [if_pos rfl]
    cases h : alookup g a with
    | none => simp [alookup]
    | some d => simp
  · rw [if_neg hax]

theorem has_item_add_item (g : Graph) (x a : String) :
    has_item (add_item g x) a = if a = x then true else has_item g a := by
  rw [has_item, has_item, alookup_add_item]
  by_cases hax : a = x
  · simp [hax]
  · simp [hax]

theorem has_edge_of_lookup (g : Graph) (a b : String) :
    has_edge g a b = (alookup ((alookup g a).getD []) b).isSome := by
  rw [has_edge]
  cases alookup g a with
  | none => simp [alookup]
  | some d => simp

theorem has_edge_add_item (g : Graph) (x a b : String) :
    has_edge (add_item g x) a b = has_edge g a b := by
  rw [has_edge_of_lookup, has_edge_of_lookup, alookup_add_item]
  by_cases hax : a = x
  · subst hax
    rw [if_pos rfl]
    cases h : alookup g a with
    | none => simp [alookup]
    | some d => simp
  · rw [if_neg hax]

theorem alookup_bump_self (d : NbrMap) (k : String) :
    alookup (bump d k) k = some ((alookup d k).getD 0 + 1) := by
  rw [bump]
  exact alookup_aset_self d k _

theorem alookup_bump_ne (d : NbrMap) (k k' : String) (h : k' ≠ k) :
    alookup (bump d k) k' = alookup d k' := by
  rw [bump]
  exact alookup_aset_ne d k k' _ h

theorem edge_weight_add_co (g : Graph) (x y a b : String) :
    edge_weight (add_co_purchase g x y) a b =
      edge_weight g a b +
        (if x ≠ y ∧ ((a = x ∧ b = y) ∨ (a = y ∧ b = x)) then 1 else 0) := by
  by_cases hxy : x = y
  · subst hxy
    simp [add_co_purchase]
  · have hyx : y ≠ x := fun h => hxy h.symm
    simp only [add_co_purchase, if_neg hxy]
    have h2x : alookup (add_item (add_item g x) y) x = some ((alookup g x).getD []) := by
      rw [alookup_add_item, if_neg hxy, alookup_add_item, if_pos rfl]
    have h2y : alookup (add_item (add_item g x) y) y = some ((alookup g y).getD []) := by
      rw [alookup_add_item, if_pos rfl, alookup_add_item, if_neg hyx]
    rw [h2x]
    simp only [Option.getD_some]
    by_cases hay : a = y
    · rw [hay]
      rw [edge_weight_of_lookup, alookup_aset_self]
      rw [alookup_aset_ne _ _ _ _ hyx, h2y]
      simp only [Option.getD_some]
      by_cases hbx : b = x
      · rw [hbx]
        rw [alookup_bump_self]
        simp only [Option.getD_some]
        rw [edge_weight_of_lookup]
        simp [hxy]
      · rw [alookup_bump_ne _ _ _ hbx]
        rw [edge_weight_of_lookup]
        rw [if_neg]
        · ring
        · rintro ⟨-, ⟨hyx', -⟩ | ⟨-, hbx'⟩⟩
          · exact hyx hyx'
          · exact hbx hbx'
    · rw [edge_weight_of_lookup, alookup_aset_ne _ _ _ _ hay]
      by_cases hax : a = x
      · rw [hax]
        rw [alookup_aset_self]
        simp only [Option.getD_some]
        by_cases hby : b = y
        · rw [hby]
          rw [alookup_bump_self]
          simp only [Option.getD_some]
          rw [edge_weight_of_lookup]
          simp [hxy]
        · rw [alookup_bump_ne _ _ _ hby]
          rw [edge_weight_of_lookup]
          rw [if_neg]
          · ring
          · rintro ⟨-, ⟨-, hby'⟩ | ⟨hxy', -⟩⟩
            · exact hby hby'
            · exact hxy hxy'
      · rw [alookup_aset_ne _ _ _ _ hax]
        rw [alookup_add_item, if_neg hay, alookup_add_item, if_neg hax]
        rw [← edge_weight_of_lookup]
        rw [if_neg]
        · ring
        · rintro ⟨-, ⟨hax', -⟩ | ⟨hay', -⟩⟩
          · exact hax hax'
          · exact hay hay'

theorem has_edge_add_co (g : Graph) (x y a b : String) :
    has_edge (add_co_purchase g x y) a b = true ↔
      (has_edge g a b = true ∨ (x ≠ y ∧ ((a = x ∧ b = y) ∨ (a = y ∧ b = x)))) := by
  by_cases hxy : x = y
  · subst hxy
    simp [add_co_purchase]
  · have hyx : y ≠ x := fun h => hxy h.symm
    simp only [add_co_purchase, if_neg hxy]
    have h2x : alookup (add_item (add_item g x) y) x = some ((alookup g x).getD []) := by
      rw [alookup_add_item, if_neg hxy, alookup_add_item, if_pos rfl]
    have h2y : alookup (add_item (add_item g x) y) y = some ((alookup g y).getD []) := by
      rw [alookup_add_item, if_pos rfl, alookup_add_item, if_neg hyx]
    rw [h2x]
    simp only [Option.getD_some]
    by_cases hay : a = y
    · rw [hay]
      rw [has_edge_of_lookup, alookup_aset_self]
      rw [alookup_aset_ne _ _ _ _ hyx, h2y]
      simp only [Option.getD_some]
      by_cases hbx : b = x
      · rw [hbx]
        rw [alookup_bump_self]
        simp [hxy]
      · rw [alookup_bump_ne _ _ _ hbx]
        rw [has_edge_of_lookup]
        constructor
        · intro h; exact Or.inl h
        · rintro (h | ⟨-, ⟨hyx', -⟩ | ⟨-, hbx'⟩⟩)
          · exact h
          · exact absurd hyx' hyx
          · exact absurd hbx' hbx
    · rw [has_edge_of_lookup, alookup_aset_ne _ _ _ _ hay]
      by_cases hax : a = x
      · rw [hax]
        rw [alookup_aset_self]
        simp only [Option.getD_some]
        by_cases hby : b = y
        · rw [hby]
          rw [alookup_bump_self]
          simp [hxy]
        · rw [alookup_bump_ne _ _ _ hby]
          rw [has_edge_of_lookup]
          constructor
          · intro h; exact Or.inl h
          · rintro (h | ⟨-, ⟨-, hby'⟩ | ⟨hxy', -⟩⟩)
            · exact h
            · exact absurd hby' hby
            · exact absurd hxy' hxy
      · rw [alookup_aset_ne _ _ _ _ hax]
        rw [alookup_add_item, if_neg hay, alookup_add_item, if_neg hax]
        rw [← has_edge_of_lookup]
        constructor
        · intro h; exact Or.inl h
        · rintro (h | ⟨-, ⟨hax', -⟩ | ⟨hay', -⟩⟩)
          · exact h
          · exact absurd hax' hax
          · exact absurd hay' hay

/-! ### Semantic invariants of built graphs -/

theorem buildG_rec (P : Graph → Prop) (h0 : P ([] : Graph))
    (h1 : ∀ g item, P g → P (add_item g item))
    (h2 : ∀ g a b, P g → P (add_co_purchase g a b)) :
    ∀ ops, P (buildG ops) := by
  have key : ∀ (ops : List Op) (g : Graph), P g → P (ops.foldl applyOp g) := by
    intro ops
    induction ops with
    | nil => intro g h; exact h
    | cons op rest ih =>
      intro g h
      rw [List.foldl_cons]
      apply ih
      cases op with
      | addItem item => exact h1 g item h
      | addCo a b => exact h2 g a b h
  exact fun ops => key ops [] h0

theorem edge_weight_empty (a b : String) : edge_weight ([] : Graph) a b = 0 := rfl

theorem symm_buildG (ops : List Op) :
    ∀ a b, edge_weight (buildG ops) a b = edge_weight (buildG ops) b a := by
  refine buildG_rec (fun g => ∀ a b, edge_weight g a b = edge_weight g b a) ?_ ?_ ?_ ops
  · intro a b; rfl
  · intro g item ih a b
    rw [edge_weight_add_item, edge_weight_add_item]
    exact ih a b
  · intro g x y ih a b
    rw [edge_weight_add_co, edge_weight_add_co, ih a b]
    have hiff : (x ≠ y ∧ ((a = x ∧ b = y) ∨ (a = y ∧ b = x))) ↔
        (x ≠ y ∧ ((b = x ∧ a = y) ∨ (b = y ∧ a = x))) := by tauto
    rw [if_congr hiff rfl rfl]

theorem self_zero_buildG (ops : List Op) :
    ∀ a, edge_weight (buildG ops) a a = 0 := by
  refine buildG_rec (fun g => ∀ a, edge_weight g a a = 0) ?_ ?_ ?_ ops
  · intro a; rfl
  · intro g item ih a
    rw [edge_weight_add_item]
    exact ih a
  · intro g x y ih a
    rw [edge_weight_add_co, ih a]
    rw [if_neg]
    · ring
    · rintro ⟨hxy, ⟨h1, h2⟩ | ⟨h1, h2⟩⟩ <;> exact hxy (h1 ▸ h2 ▸ rfl)

theorem nonneg_and_hasEdge_buildG (ops : List Op) :
    (∀ a b, 0 ≤ edge_weight (buildG ops) a b) ∧
      (∀ a b, has_edge (buildG ops) a b = true ↔ 1 ≤ edge_weight (buildG ops) a b) := by
  refine buildG_rec (fun g => (∀ a b, 0 ≤ edge_weight g a b) ∧
    (∀ a b, has_edge g a b = true ↔ 1 ≤ edge_weight g a b)) ?_ ?_ ?_ ops
  · constructor
    · intro a b; exact le_refl 0
    · intro a b
      constructor
      · intro h; cases h
      · intro h; exact absurd h (by rw [edge_weight_empty]; omega)
  · intro g item ih
    constructor
    · intro a b; rw [edge_weight_add_item]; exact ih.1 a b
    · intro a b; rw [edge_weight_add_item, has_edge_add_item]; exact ih.2 a b
  · intro g x y ih
    constructor
    · intro a b
      rw [edge_weight_add_co]
      have := ih.1 a b
      by_cases hc : x ≠ y ∧ ((a = x ∧ b = y) ∨ (a = y ∧ b = x))
      · rw [if_pos hc]; omega
      · rw [if_neg hc]; omega
    · intro a b
      rw [edge_weight_add_co, has_edge_add_co, ih.2 a b]
      have h0 := ih.1 a b
      by_cases hc : x ≠ y ∧ ((a = x ∧ b = y) ∨ (a = y ∧ b = x))
      · rw [if_pos hc]
        constructor
        · intro _; omega
        · intro _; exact Or.inr hc
      · rw [if_neg hc]
        constructor
        · rintro (h | h)
          · omega
          · exact absurd h hc
        · intro h; left; omega

/-! ### Structural invariants of built graphs -/

/-- Structural well-formedness of the adjacency representation: outer keys are
distinct, each inner dict has distinct keys, every inner key is a node of the
graph, no inner dict mentions its own node, and every stored weight is at
least 1. -/
structure WF (g : Graph) : Prop where
  nk : (g.map Prod.fst).Nodup
  inn : ∀ p ∈ g, (p.2.map Prod.fst).Nodup
  cl : ∀ p ∈ g, ∀ q ∈ p.2, has_item g q.1 = true
  ns : ∀ p ∈ g, ∀ q ∈ p.2, q.1 ≠ p.1
  pos : ∀ p ∈ g, ∀ q ∈ p.2, 1 ≤ q.2

theorem wf_empty : WF ([] : Graph) := by
  refine ⟨?_, ?_, ?_, ?_, ?_⟩ <;> simp

theorem mem_add_item (g : Graph) (x : String) (p : String × NbrMap) :
    p ∈ add_item g x → p ∈ g ∨ p = (x, []) := by
  rw [add_item]
  by_cases h : (alookup g x).isSome
  · rw [if_pos h]; exact Or.inl
  · rw [if_neg h]
    intro hp
    rcases List.mem_append.mp hp with hp | hp
    · exact Or.inl hp
    · right
      simpa using hp

theorem has_item_add_item_of (g : Graph) (x a : String) (h : has_item g a = true) :
    has_item (add_item g x) a = true := by
  rw [has_item_add_item]
  by_cases hax : a = x
  · simp [hax]
  · simp [hax, h]

theorem has_item_iff_mem_keys (g : Graph) (a : String) :
    has_item g a = true ↔ a ∈ g.map Prod.fst :=
  alookup_isSome_iff_mem g a

theorem wf_add_item (g : Graph) (x : String) (h : WF g) : WF (add_item g x) := by
  by_cases hx : (alookup g x).isSome
  · rw [add_item, if_pos hx]; exact h
  · have hxk : x ∉ g.map Prod.fst := by
      intro hmem
      exact hx ((alookup_isSome_iff_mem g x).mpr hmem)
    constructor
    · rw [add_item, if_neg hx, List.map_append]
      rw [List.nodup_append]
      refine ⟨h.nk, by simp, ?_⟩
      intro a ha hmem
      simp only [List.map_cons, List.map_nil, List.mem_singleton] at hmem
      rw [hmem] at ha
      exact hxk ha
    · intro p hp
      rcases mem_add_item g x p hp with hp' | hp'
      · exact h.inn p hp'
      · rw [hp']; simp
    · intro p hp q hq
      rcases mem_add_item g x p hp with hp' | hp'
      · exact has_item_add_item_of g x q.1 (h.cl p hp' q hq)
      · rw [hp'] at hq; simp at hq
    · intro p hp q hq
      rcases mem_add_item g x p hp with hp' | hp'
      · exact h.ns p hp' q hq
      · rw [hp'] at hq; simp at hq
    · intro p hp q hq
      rcases mem_add_item g x p hp with hp' | hp'
      · exact h.pos p hp' q hq
      · rw [hp'] at hq; simp at hq

theorem has_item_aset (g : Graph) (x a : String) (v : NbrMap)
    (hx : x ∈ g.map Prod.fst) :
    has_item (aset g x v) a = has_item g a := by
  have hkeys := keys_aset_present g x v hx
  by_cases ha : has_item g a = true
  · have := (has_item_iff_mem_keys g a).mp ha
    rw [ha]
    rw [has_item_iff_mem_keys (aset g x v) a |>.symm.mp]
    rw [hkeys]
    exact this
  · have ha' : has_item g a = false := by
      cases hcase : has_item g a
      · rfl
      · exact absurd hcase ha
    rw [ha']
    cases hcase : has_item (aset g x v) a
    · rfl
    · exfalso
      have := (has_item_iff_mem_keys (aset g x v) a).mp hcase
      rw [hkeys] at this
      exact ha ((has_item_iff_mem_keys g a).mpr this)

theorem wf_aset_bump (g : Graph) (x y : String) (h : WF g)
    (hx : (alookup g x).isSome = true) (hy : has_item g y = true) (hyx : y ≠ x) :
    WF (aset g x (bump ((alookup g x).getD []) y)) := by
  obtain ⟨d, hd⟩ : ∃ d, alookup g x = some d := by
    cases hcase : alookup g x
    · rw [hcase] at hx; simp at hx
    · exact ⟨_, rfl⟩
  have hdg : (x, d) ∈ g := alookup_mem g x d hd
  have hxk : x ∈ g.map Prod.fst := (alookup_isSome_iff_mem g x).mp hx
  have hgetd : (alookup g x).getD [] = d := by rw [hd]; rfl
  have hkeys := keys_aset_present g x (bump ((alookup g x).getD []) y) hxk
  constructor
  · rw [hkeys]; exact h.nk
  · intro p hp
    rcases mem_aset _ _ _ _ hp with hp' | hp'
    · rw [hp', hgetd]
      rw [bump]
      by_cases hyd : y ∈ d.map Prod.fst
      · rw [keys_aset_present d y _ hyd]
        exact h.inn (x, d) hdg
      · rw [keys_aset_absent d y _ hyd]
        rw [List.nodup_append]
        refine ⟨h.inn (x, d) hdg, by simp, ?_⟩
        intro a ha hmem
        simp only [List.mem_singleton] at hmem
        rw [hmem] at ha
        exact hyd ha
    · exact h.inn p hp'
  · intro p hp q hq
    rw [has_item_aset g x _ _ hxk]
    rcases mem_aset _ _ _ _ hp with hp' | hp'
    · rw [hp', hgetd] at hq
      rcases mem_aset _ _ _ _ hq with hq' | hq'
      · rw [hq']; exact hy
      · exact h.cl (x, d) hdg q hq'
    · exact h.cl p hp' q hq
  · intro p hp q hq
    rcases mem_aset _ _ _ _ hp with hp' | hp'
    · rw [hp', hgetd] at hq ⊢
      rcases mem_aset _ _ _ _ hq with hq' | hq'
      · rw [hq']; exact hyx
      · exact h.ns (x, d) hdg q hq'
    · exact h.ns p hp' q hq
  · intro p hp q hq
    rcases mem_aset _ _ _ _ hp with hp' | hp'
    · rw [hp', hgetd] at hq
      rcases mem_aset _ _ _ _ hq with hq' | hq'
      · rw [hq']
        have hval : 0 ≤ (alookup d y).getD 0 := by
          cases hcase : alookup d y with
          | none => simp
          | some v =>
            have := h.pos (x, d) hdg (y, v) (alookup_mem d y v hcase)
            simp
            omega
        simp only
        omega
      · exact h.pos (x, d) hdg q hq'
    · exact h.pos p hp' q hq

theorem wf_add_co (g : Graph) (x y : String) (h : WF g) :
    WF (add_co_purchase g x y) := by
  by_cases hxy : x = y
  · rw [add_co_purchase, if_pos hxy]; exact h
  · have hyx : y ≠ x := fun hh => hxy hh.symm
    simp only [add_co_purchase, if_neg hxy]
    have h2 : WF (add_item (add_item g x) y) := wf_add_item _ y (wf_add_item g x h)
    have h2x : alookup (add_item (add_item g x) y) x = some ((alookup g x).getD []) := by
      rw [alookup_add_item, if_neg hxy, alookup_add_item, if_pos rfl]
    have h2y : alookup (add_item (add_item g x) y) y = some ((alookup g y).getD []) := by
      rw [alookup_add_item, if_pos rfl, alookup_add_item, if_neg hyx]
    have hx2 : (alookup (add_item (add_item g x) y) x).isSome = true := by
      rw [h2x]; rfl
    have hy2 : has_item (add_item (add_item g x) y) y = true := by
      rw [has_item, h2y]; rfl
    have h3 : WF (aset (add_item (add_item g x) y) x
        (bump ((alookup (add_item (add_item g x) y) x).getD []) y)) :=
      wf_aset_bump _ x y h2 hx2 hy2 hyx
    have hx2k : x ∈ (add_item (add_item g x) y).map Prod.fst :=
      (alookup_isSome_iff_mem _ x).mp hx2
    have h3y : (alookup (aset (add_item (add_item g x) y) x
        (bump ((alookup (add_item (add_item g x) y) x).getD []) y)) y).isSome = true := by
      rw [alookup_aset_ne _ _ _ _ hyx, h2y]; rfl
    have h3x : has_item (aset (add_item (add_item g x) y) x
        (bump ((alookup (add_item (add_item g x) y) x).getD []) y)) x = true := by
      rw [has_item_aset _ _ _ _ hx2k, has_item, h2x]; rfl
    exact wf_aset_bump _ y x h3 h3y h3x hxy

theorem wf_buildG (ops : List Op) : WF (buildG ops) :=
  buildG_rec WF wf_empty wf_add_item wf_add_co ops

/-! ## Sorting (src/graph_algorithms.py) -/

theorem length_filter_lt_of_not {α : Type} (p : α → Bool) (l : List α) (x : α)
    (hx : x ∈ l) (hpx : p x = false) : (l.filter p).length < l.length := by
  induction l with
  | nil => cases hx
  | cons a rest ih =>
    rcases List.mem_cons.mp hx with h | h
    · rw [List.filter_cons, ← h, hpx]
      have := List.length_filter_le p rest
      simp only [Bool.false_eq_true, if_false, List.length_cons]
      omega
    · rw [List.filter_cons]
      by_cases hpa : p a = true
      · simp only [hpa, if_true, List.length_cons]
        have := ih h
        omega
      · have hpa' : p a = false := by
          cases hcase : p a
          · rfl
          · exact absurd hcase hpa
        simp only [hpa', Bool.false_eq_true, if_false, List.length_cons]
        have := ih h
        omega

/-- `quick_sort_items` from src/graph_algorithms.py: middle-element pivot on
the weight, strict greater / equal / strict less partition, recursive
concatenation. -/
def quick_sort_items {α : Type} (pairs : List (α × Int)) : List (α × Int) :=
  if h : pairs.length ≤ 1 then pairs
  else
    quick_sort_items
        (pairs.filter (fun p => (pairs.get ⟨pairs.length / 2, by omega⟩).2 < p.2))
      ++ pairs.filter (fun p => p.2 = (pairs.get ⟨pairs.length / 2, by omega⟩).2)
      ++ quick_sort_items
        (pairs.filter (fun p => p.2 < (pairs.get ⟨pairs.length / 2, by omega⟩).2))
termination_by pairs.length
decreasing_by
  · exact length_filter_lt_of_not _ pairs (pairs.get ⟨pairs.length / 2, by omega⟩)
      (List.get_mem _ _ _) (by simp)
  · exact length_filter_lt_of_not _ pairs (pairs.get ⟨pairs.length / 2, by omega⟩)
      (List.get_mem _ _ _) (by simp)

/-- Insertion of `x` in front of the first element whose key is not larger:
the insertion step of a stable descending sort by the key `w`. -/
def insertDescBy {α : Type} (w : α → Int) (x : α) : List α → List α
  | [] => [x]
  | y :: ys => if w y ≤ w x then x :: y :: ys else y :: insertDescBy w x ys

/-- Stable descending insertion sort by the key `w`: the embedding of Python's
built-in stable sort with `key=w, reverse=True`. -/
def pySortDescBy {α : Type} (w : α → Int) : List α → List α
  | [] => []
  | x :: xs => insertDescBy w x (pySortDescBy w xs)

theorem mem_insertDescBy {α : Type} (w : α → Int) (x : α) :
    ∀ (l : List α) (a : α), a ∈ insertDescBy w x l ↔ a = x ∨ a ∈ l := by
  intro l
  induction l with
  | nil => intro a; simp [insertDescBy]
  | cons y ys ih =>
    intro a
    rw [insertDescBy]
    by_cases hc : w y ≤ w x
    · rw [if_pos hc]
      simp [List.mem_cons]
    · rw [if_neg hc]
      simp only [List.mem_cons, ih a]
      tauto

theorem mem_pySortDescBy {α : Type} (w : α → Int) :
    ∀ (l : List α) (a : α), a ∈ pySortDescBy w l ↔ a ∈ l := by
  intro l
  induction l with
  | nil => intro a; rfl
  | cons y ys ih =>
    intro a
    rw [pySortDescBy, mem_insertDescBy]
    simp [List.mem_cons, ih a]

theorem length_insertDescBy {α : Type} (w : α → Int) (x : α) :
    ∀ l : List α, (insertDescBy w x l).length = l.length + 1 := by
  intro l
  induction l with
  | nil => rfl
  | cons y ys ih =>
    rw [insertDescBy]
    by_cases hc : w y ≤ w x
    · rw [if_pos hc]; rfl
    · rw [if_neg hc]
      simp only [List.length_cons, ih]

theorem length_pySortDescBy {α : Type} (w : α → Int) :
    ∀ l : List α, (pySortDescBy w l).length = l.length := by
  intro l
  induction l with
  | nil => rfl
  | cons y ys ih =>
    rw [pySortDescBy, length_insertDescBy]
    simp [ih]

theorem insertDescBy_all_le {α : Type} (w : α → Int) (x : α) (l : List α)
    (h : ∀ z ∈ l, w z ≤ w x) : insertDescBy w x l = x :: l := by
  cases l with
  | nil => rfl
  | cons y ys =>
    rw [insertDescBy, if_pos (h y (List.mem_cons_self _ _))]

theorem insertDescBy_append_le {α : Type} (w : α → Int) (x : α) (rest : List α)
    (h : ∀ z ∈ rest, w z ≤ w x) :
    ∀ A : List α, insertDescBy w x (A ++ rest) = insertDescBy w x A ++ rest := by
  intro A
  induction A with
  | nil =>
    rw [List.nil_append, insertDescBy_all_le w x rest h]
    rfl
  | cons a A ih =>
    rw [List.cons_append, insertDescBy, insertDescBy]
    by_cases hc : w a ≤ w x
    · rw [if_pos hc, if_pos hc, List.cons_append, List.cons_append]
    · rw [if_neg hc, if_neg hc, List.cons_append, ih]

theorem insertDescBy_append_gt {α : Type} (w : α → Int) (x : α) (rest : List α) :
    ∀ A : List α, (∀ z ∈ A, ¬ w z ≤ w x) →
      insertDescBy w x (A ++ rest) = A ++ insertDescBy w x rest := by
  intro A
  induction A with
  | nil => intro _; rfl
  | cons a A ih =>
    intro h
    rw [List.cons_append, insertDescBy, if_neg (h a (List.mem_cons_self _ _)),
      List.cons_append, ih (fun z hz => h z (List.mem_cons_of_mem _ hz))]

theorem pySortDesc_snd_partition {α : Type} (pv : Int) :
    ∀ l : List (α × Int),
      pySortDescBy (fun p => p.2) l =
        pySortDescBy (fun p => p.2) (l.filter (fun p => pv < p.2))
          ++ l.filter (fun p => p.2 = pv)
          ++ pySortDescBy (fun p => p.2) (l.filter (fun p => p.2 < pv)) := by
  intro l
  induction l with
  | nil => rfl
  | cons x xs ih =>
    rw [pySortDescBy, ih]
    rcases lt_trichotomy x.2 pv with h | h | h
    · have h1 : ¬ pv < x.2 := not_lt_of_gt h
      have h2 : ¬ x.2 = pv := ne_of_lt h
      rw [List.filter_cons, List.filter_cons, List.filter_cons]
      simp only [h1, h2, h, decide_True, decide_False, Bool.false_eq_true, if_false, if_true]
      rw [insertDescBy_append_gt _ _ _ _ (by
        intro z hz
        rcases List.mem_append.mp hz with hz | hz
        · rw [mem_pySortDescBy, List.mem_filter] at hz
          have := of_decide_eq_true hz.2
          omega
        · rw [List.mem_filter] at hz
          have := of_decide_eq_true hz.2
          omega)]
      rw [pySortDescBy]
    · have h1 : ¬ pv < x.2 := by omega
      have h3 : ¬ x.2 < pv := by omega
      rw [List.filter_cons, List.filter_cons, List.filter_cons]
      simp only [h1, h3, h, decide_True, decide_False, Bool.false_eq_true, if_false, if_true]
      rw [List.append_assoc]
      rw [insertDescBy_append_gt _ _ _ _ (by
        intro z hz
        rw [mem_pySortDescBy, List.mem_filter] at hz
        have := of_decide_eq_true hz.2
        omega)]
      rw [insertDescBy_all_le _ _ _ (by
        intro z hz
        rcases List.mem_append.mp hz with hz | hz
        · rw [List.mem_filter] at hz
          have := of_decide_eq_true hz.2
          omega
        · rw [mem_pySortDescBy, List.mem_filter] at hz
          have := of_decide_eq_true hz.2
          omega)]
      simp [List.append_assoc]
    · have h2 : ¬ x.2 = pv := ne_of_gt h
      have h3 : ¬ x.2 < pv := by omega
      rw [List.filter_cons, List.filter_cons, List.filter_cons]
      simp only [h2, h3, h, decide_True, decide_False, Bool.false_eq_true, if_false, if_true]
      rw [insertDescBy_append_le _ _ _ (by
        intro z hz
        rw [mem_pySortDescBy, List.mem_filter] at hz
        have := of_decide_eq_true hz.2
        omega)]
      rw [insertDescBy_append_le _ _ _ (by
        intro z hz
        rw [List.mem_filter] at hz
        have := of_decide_eq_true hz.2
        omega)]
      rw [pySortDescBy]

theorem quick_sort_items_eq {α : Type} :
    ∀ pairs : List (α × Int),
      quick_sort_items pairs = pySortDescBy (fun p => p.2) pairs := by
  intro pairs
  rw [quick_sort_items]
  by_cases h : pairs.length ≤ 1
  · rw [dif_pos h]
    cases pairs with
    | nil => rfl
    | cons x xs =>
      cases xs with
      | nil => rfl
      | cons y ys => simp at h
  · rw [dif_neg h]
    rw [quick_sort_items_eq
      (pairs.filter (fun p => (pairs.get ⟨pairs.length / 2, by omega⟩).2 < p.2))]
    rw [quick_sort_items_eq
      (pairs.filter (fun p => p.2 < (pairs.get ⟨pairs.length / 2, by omega⟩).2))]
    exact (pySortDesc_snd_partition (pairs.get ⟨pairs.length / 2, by omega⟩).2 pairs).symm
termination_by pairs => pairs.length
decreasing_by
  · exact length_filter_lt_of_not _ pairs (pairs.get ⟨pairs.length / 2, by omega⟩)
      (List.get_mem _ _ _) (by simp)
  · exact length_filter_lt_of_not _ pairs (pairs.get ⟨pairs.length / 2, by omega⟩)
      (List.get_mem _ _ _) (by simp)

theorem length_quick_sort_items {α : Type} (pairs : List (α × Int)) :
    (quick_sort_items pairs).length = pairs.length := by
  rw [quick_sort_items_eq]
  exact length_pySortDescBy _ pairs

/-- Python slicing `xs[:k]` for an arbitrary integer `k`: a non-negative `k`
keeps the first `k` elements, a negative `k` keeps all but the last `|k|`. -/
def pyTake {α : Type} (k : Int) (l : List α) : List α :=
  if 0 ≤ k then l.take k.toNat else l.take (l.length - (-k).toNat)

theorem pyTake_eq_nil_iff {α : Type} (k : Int) (l : List α) (hk : k ≤ 0) :
    pyTake k l = [] ↔ (k = 0 ∨ l.length ≤ (-k).toNat) := by
  rw [pyTake]
  by_cases h0 : k = 0
  · subst h0
    simp
  · have hneg : ¬ 0 ≤ k := by omega
    rw [if_neg hneg]
    constructor
    · intro hl
      right
      rcases List.take_eq_nil_iff.mp hl with h1 | h1
      · omega
      · subst h1
        simp
    · rintro (h1 | h1)
      · exact absurd h1 h0
      · have hz : l.length - (-k).toNat = 0 := by omega
        rw [hz]
        exact List.take_zero l

/-! ## Mining, ranking and recommendation (src/graph_algorithms.py) -/

/-- `frequent_pairs`: walk the adjacency in iteration order, keep each pair
whose first label sorts strictly before the second (Python `item < neighbour`)
and whose weight reaches `min_support`; no sorting is applied. -/
def frequent_pairs (g : Graph) (min_support : Int) : List ((String × String) × Int) :=
  g.flatMap (fun p => p.2.filterMap (fun q =>
    if pyLt p.1 q.1 = true ∧ min_support ≤ q.2 then some ((p.1, q.1), q.2) else none))

/-- The pair extraction step of `top_product_bundles` (its `all_pairs` list). -/
def bundle_pairs (g : Graph) : List ((String × String) × Int) :=
  g.flatMap (fun p => p.2.filterMap (fun q =>
    if pyLt p.1 q.1 = true then some ((p.1, q.1), q.2) else none))

/-- `top_product_bundles`: extract all deduplicated pairs, quick sort them by
descending weight, return the slice `[:k]`. -/
def top_product_bundles (g : Graph) (k : Int) : List ((String × String) × Int) :=
  pyTake k (quick_sort_items (bundle_pairs g))

/-- `recommend_items`: empty for an unknown item, otherwise the slice
`[:top_n]` of the quick-sorted neighbour list. -/
def recommend_items (g : Graph) (item : String) (top_n : Int) : List (String × Int) :=
  if has_item g item then pyTake top_n (quick_sort_items (neighbours g item)) else []

/-- The edge extraction step of `strongest_associations` (its `edges` list). -/
def strongest_edges (g : Graph) : List (String × String × Int) :=
  g.flatMap (fun p => p.2.filterMap (fun q =>
    if pyLt p.1 q.1 = true then some (p.1, q.1, q.2) else none))

/-- `strongest_associations`: the same extraction, sorted with the built-in
stable sort on the weight in descending order, sliced to `[:top_n]`. -/
def strongest_associations (g : Graph) (top_n : Int) : List (String × String × Int) :=
  pyTake top_n (pySortDescBy (fun t => t.2.2) (strongest_edges g))

/-! ## Traversal engine (src/graph_algorithms.py) -/

/-- Iteration order of `for neighbour in graph[current]`. -/
def nbrKeys (g : Graph) (item : String) : List String := (neighbours g item).map Prod.fst

/-- All strings that can ever be newly visited by a traversal: the keys of the
inner dicts.  Used only as the termination measure of the loops. -/
def nodeUniverse (g : Graph) : Finset String :=
  (g.flatMap (fun p => p.2.map Prod.fst)).toFinset

theorem nbrKeys_subset_universe (g : Graph) (c : String) :
    ∀ n ∈ nbrKeys g c, n ∈ nodeUniverse g := by
  intro n hn
  rw [nbrKeys, neighbours] at hn
  cases hd : alookup g c with
  | none => rw [hd] at hn; simp at hn
  | some d =>
    rw [hd] at hn
    simp only [Option.getD_some] at hn
    rw [nodeUniverse, List.mem_toFinset, List.mem_flatMap]
    exact ⟨(c, d), alookup_mem g c d hd, hn⟩

/-- The body of the BFS `for neighbour in graph[current]` loop: threading
`(visited, related, newly enqueued)` through the neighbour list. -/
def bfsStep (g : Graph) (visited related : List String) (ns : List String) :
    List String × List String × List String :=
  ns.foldl
    (fun acc n => if n ∈ acc.1 then acc else (n :: acc.1, acc.2.1 ++ [n], acc.2.2 ++ [n]))
    (visited, related, [])

theorem bfsStep_card (g : Graph) :
    ∀ (ns : List String) (acc : List String × List String × List String),
      (∀ n ∈ ns, n ∈ nodeUniverse g) →
      ((nodeUniverse g \ (ns.foldl
        (fun acc n => if n ∈ acc.1 then acc else (n :: acc.1, acc.2.1 ++ [n], acc.2.2 ++ [n]))
        acc).1.toFinset).card
        + (ns.foldl
        (fun acc n => if n ∈ acc.1 then acc else (n :: acc.1, acc.2.1 ++ [n], acc.2.2 ++ [n]))
        acc).2.2.length
        = (nodeUniverse g \ acc.1.toFinset).card + acc.2.2.length) := by
  intro ns
  induction ns with
  | nil => intro acc h; rfl
  | cons n rest ih =>
    intro acc h
    simp only [List.foldl_cons]
    by_cases hv : n ∈ acc.1
    · rw [if_pos hv]
      exact ih acc (fun m hm => h m (List.mem_cons_of_mem _ hm))
    · rw [if_neg hv]
      rw [ih _ (fun m hm => h m (List.mem_cons_of_mem _ hm))]
      simp only [List.toFinset_cons, List.length_append, List.length_singleton]
      have hn : n ∈ nodeUniverse g \ acc.1.toFinset := by
        rw [Finset.mem_sdiff, List.mem_toFinset]
        exact ⟨h n (List.mem_cons_self _ _), hv⟩
      rw [Finset.sdiff_insert, Finset.card_erase_of_mem hn]
      have hpos : 0 < (nodeUniverse g \ acc.1.toFinset).card := Finset.card_pos.mpr ⟨n, hn⟩
      omega

theorem bfsStep_card_apply (g : Graph) (visited related : List String) (ns : List String)
    (h : ∀ n ∈ ns, n ∈ nodeUniverse g) :
    (nodeUniverse g \ (bfsStep g visited related ns).1.toFinset).card
      + (bfsStep g visited related ns).2.2.length
      = (nodeUniverse g \ visited.toFinset).card := by
  have hc := bfsStep_card g ns (visited, related, []) h
  simpa [bfsStep] using hc

/-- The `while queue` loop of `bfs_related_items`: pop `current`, walk its
neighbours, append the newly discovered ones to the queue and the result. -/
def bfsLoop (g : Graph) (visited : List String) (queue : List String)
    (related : List String) : List String :=
  match queue with
  | [] => related
  | current :: rest =>
    bfsLoop g (bfsStep g visited related (nbrKeys g current)).1
      (rest ++ (bfsStep g visited related (nbrKeys g current)).2.2)
      (bfsStep g visited related (nbrKeys g current)).2.1
termination_by 2 * (nodeUniverse g \ visited.toFinset).card + queue.length
decreasing_by
  have h := bfsStep_card_apply g visited related (nbrKeys g current)
    (nbrKeys_subset_universe g current)
  simp only [List.length_append, List.length_cons]
  omega

/-- `bfs_related_items`: empty for an absent start item, otherwise the BFS
loop started with an empty visited set and `deque([start_item])`.  Note the
start item itself is never placed in `visited`. -/
def bfs_related_items (g : Graph) (start_item : String) : List String :=
  if has_item g start_item then bfsLoop g [] [start_item] [] else []

theorem foldr_max_le_of_mem : ∀ (l : List Nat) (x : Nat), x ∈ l → x ≤ l.foldr max 0 := by
  intro l
  induction l with
  | nil => intro x hx; cases hx
  | cons a rest ih =>
    intro x hx
    rcases List.mem_cons.mp hx with h | h
    · rw [h, List.foldr_cons]; exact le_max_left _ _
    · rw [List.foldr_cons]; exact le_trans (ih x h) (le_max_right _ _)

theorem nbrKeys_length_le (g : Graph) (n : String) :
    (nbrKeys g n).length ≤ (g.map (fun p => p.2.length)).foldr max 0 := by
  rw [nbrKeys, neighbours]
  cases hd : alookup g n with
  | none => simp
  | some d =>
    simp only [Option.getD_some, List.length_map]
    exact foldr_max_le_of_mem _ _ (List.mem_map_of_mem _ (alookup_mem g n d hd))

/-- The recursion of `_dfs` inside `dfs_related_items`, made iterative with an
explicit stack of pending neighbour lists: the head list is what remains of
the `for neighbour in graph[node]` loop of the innermost active `_dfs` call.
The subset argument `hst` is only used to justify termination. -/
def dfsLoop (g : Graph) (visited : List String) (stack : List (List String))
    (related : List String)
    (hst : ∀ l ∈ stack, ∀ x ∈ l, x ∈ nodeUniverse g) : List String :=
  match hstack : stack with
  | [] => related
  | [] :: rest =>
    dfsLoop g visited rest related
      (fun l hl => hst l (List.mem_cons_of_mem _ hl))
  | (n :: ps) :: rest =>
    if n ∈ visited then
      dfsLoop g visited (ps :: rest) related
        (by
          intro l hl x hx
          rcases List.mem_cons.mp hl with hl' | hl'
          · refine hst (n :: ps) (List.mem_cons_self _ _) x ?_
            rw [hl'] at hx
            exact List.mem_cons_of_mem _ hx
          · exact hst l (List.mem_cons_of_mem _ hl') x hx)
    else
      dfsLoop g (n :: visited) (nbrKeys g n :: ps :: rest) (related ++ [n])
        (by
          intro l hl x hx
          rcases List.mem_cons.mp hl with hl' | hl'
          · exact nbrKeys_subset_universe g n x (by rw [← hl']; exact hx)
          · rcases List.mem_cons.mp hl' with hl'' | hl''
            · refine hst (n :: ps) (List.mem_cons_self _ _) x ?_
              rw [hl''] at hx
              exact List.mem_cons_of_mem _ hx
            · exact hst l (List.mem_cons_of_mem _ hl'') x hx)
termination_by
  ((g.map (fun p => p.2.length)).foldr max 0 + 1)
    * (nodeUniverse g \ visited.toFinset).card
    + (stack.map (fun l => l.length + 1)).sum
decreasing_by
  · simp only [List.map_cons, List.sum_cons, List.length_nil]
    omega
  · simp only [List.map_cons, List.sum_cons, List.length_cons]
    omega
  · simp only [List.map_cons, List.sum_cons, List.length_cons]
    have hn : n ∈ nodeUniverse g \ visited.toFinset := by
      rw [Finset.mem_sdiff, List.mem_toFinset]
      constructor
      · exact hst (n :: ps) (List.mem_cons_self _ _) n (List.mem_cons_self _ _)
      · assumption
    have hcard : (nodeUniverse g \ (n :: visited).toFinset).card
        = (nodeUniverse g \ visited.toFinset).card - 1 := by
      simp only [List.toFinset_cons]
      rw [Finset.sdiff_insert, Finset.card_erase_of_mem hn]
    have hpos : 0 < (nodeUniverse g \ visited.toFinset).card := Finset.card_pos.mpr ⟨n, hn⟩
    have hdeg := nbrKeys_length_le g n
    obtain ⟨c, hc⟩ : ∃ c, (nodeUniverse g \ visited.toFinset).card = c + 1 :=
      ⟨(nodeUniverse g \ visited.toFinset).card - 1, by omega⟩
    rw [hcard, hc]
    have hsub : c + 1 - 1 = c := by omega
    have hmul : ((g.map (fun p => p.2.length)).foldr max 0 + 1) * (c + 1)
        = ((g.map (fun p => p.2.length)).foldr max 0 + 1) * c
          + ((g.map (fun p => p.2.length)).foldr max 0 + 1) := by ring
    rw [hsub, hmul]
    omega

/-- `dfs_related_items`: empty for an absent start item, otherwise the
recursive `_dfs` walk started on the neighbour list of the start item.  The
start item itself is never placed in `visited`. -/
def dfs_related_items (g : Graph) (start_item : String) : List String :=
  if has_item g start_item then
    dfsLoop g [] [nbrKeys g start_item] []
      (by
        intro l hl x hx
        rw [List.mem_singleton] at hl
        exact nbrKeys_subset_universe g start_item x (by rw [← hl]; exact hx))
  else []

/-! ## Transaction loading and graph construction (src/transaction_loader.py) -/

/-- The whitespace characters removed by Python's `str.strip()` (ASCII part:
space, tab, newline, carriage return, vertical tab, form feed). -/
def isPyWs (c : Char) : Bool :=
  c == ' ' || c == '\t' || c == '\n' || c == '\r' || c == Char.ofNat 11 || c == Char.ofNat 12

/-- Python's `s.strip()`: drop leading and trailing whitespace. -/
def pyStrip (s : String) : String :=
  String.mk (((s.data.dropWhile isPyWs).reverse.dropWhile isPyWs).reverse)

/-- `load_transactions`, applied to the parsed rows
`(member_id, date, itemDescription)` of the CSV file (the file handling and
the schema check on the header are outside the shallow embedding): strip all
three fields, drop rows whose stripped item is empty, and append the item to
the basket keyed by the stripped `(member_id, date)` (a `defaultdict(list)`,
embedded with the same insertion-ordered dict model). -/
def loadStep (ts : List ((String × String) × List String))
    (row : String × String × String) : List ((String × String) × List String) :=
  if pyStrip row.2.2 ≠ "" then
    aset ts (pyStrip row.1, pyStrip row.2.1)
      ((alookup ts (pyStrip row.1, pyStrip row.2.1)).getD [] ++ [pyStrip row.2.2])
  else ts

def load_transactions (rows : List (String × String × String)) :
    List ((String × String) × List String) :=
  rows.foldl loadStep []

/-- Deduplication keeping first occurrences: the embedding of
`list(set(basket))`.  Python's set iteration order is implementation defined;
first-occurrence order is one admissible order, and every property proved
about it below (edge weights, node sets) is insensitive to the order chosen. -/
def dedupFirst : List String → List String
  | [] => []
  | x :: xs => x :: (dedupFirst xs).filter (fun y => y ≠ x)

/-- `itertools.combinations(l, 2)`: all pairs `(l[i], l[j])` with `i < j`. -/
def combinations2 {α : Type} : List α → List (α × α)
  | [] => []
  | x :: xs => xs.map (fun y => (x, y)) ++ combinations2 xs

/-- The per-basket step of `build_graph_from_file`: deduplicate the basket,
ensure all its items are nodes, then add a co-purchase for every unordered
pair. -/
def process_basket (g : Graph) (basket : List String) : Graph :=
  (combinations2 (dedupFirst basket)).foldl (fun h p => add_co_purchase h p.1 p.2)
    ((dedupFirst basket).foldl add_item g)

/-! ## Claim C1 -/

/-- C1 (code bug witness): on the connected two-node co-purchase graph built
by one `add_co_purchase("A", "B")`, both traversals return `["B", "A"]` — the
start item `"A"` itself appears in both results, although the code's own
comment says the result holds "all reachable items except start_item".  The
loops never mark the start item as visited, so it is rediscovered through any
of its neighbours. -/
theorem c1_traversals_include_start :
    bfs_related_items (buildG [Op.addCo "A" "B"]) "A" = ["B", "A"] ∧
      dfs_related_items (buildG [Op.addCo "A" "B"]) "A" = ["B", "A"] := by
  have hg : buildG [Op.addCo "A" "B"] = [("A", [("B", 1)]), ("B", [("A", 1)])] := by decide
  rw [hg]
  constructor
  · simp [bfs_related_items, has_item, alookup, bfsLoop, bfsStep, nbrKeys, neighbours]
  · simp [dfs_related_items, has_item, alookup, dfsLoop, nbrKeys, neighbours]

/-! ## Claim C5 -/

/-- C5: on every graph reachable by `add_item` / `add_co_purchase` calls from
a fresh `CoPurchaseGraph`, the edge weights are symmetric and no self-loop is
ever recorded; moreover `add_co_purchase(A, A)` is a no-op on any graph. -/
theorem c5_symmetric_no_self_loops :
    (∀ (ops : List Op) (a b : String),
      edge_weight (buildG ops) a b = edge_weight (buildG ops) b a) ∧
    (∀ (ops : List Op) (a : String), edge_weight (buildG ops) a a = 0) ∧
    (∀ (g : Graph) (a : String), add_co_purchase g a a = g) := by
  refine ⟨fun ops => symm_buildG ops, fun ops => self_zero_buildG ops, ?_⟩
  intro g a
  rw [add_co_purchase, if_pos rfl]

/-! ## Claim C10 -/

/-- C10: on every graph built by `add_item` / `add_co_purchase` calls,
`has_edge(A, B)` holds exactly when `edge_weight(A, B) ≥ 1`, and `has_edge`
is symmetric. -/
theorem c10_has_edge_iff_positive_weight (ops : List Op) (a b : String) :
    (has_edge (buildG ops) a b = true ↔ 1 ≤ edge_weight (buildG ops) a b) ∧
      has_edge (buildG ops) a b = has_edge (buildG ops) b a := by
  have h1 := (nonneg_and_hasEdge_buildG ops).2 a b
  have h2 := (nonneg_and_hasEdge_buildG ops).2 b a
  have hw := symm_buildG ops a b
  refine ⟨h1, ?_⟩
  cases hab : has_edge (buildG ops) a b with
  | true =>
    have hwab := h1.mp hab
    rw [hw] at hwab
    exact (h2.mpr hwab).symm
  | false =>
    cases hba : has_edge (buildG ops) b a with
    | true =>
      have hwba := h2.mp hba
      rw [← hw] at hwba
      have := h1.mpr hwba
      rw [hab] at this
      cases this
    | false => rfl

/-! ## Claim C7 -/

theorem neighbours_eq_nil_of_absent (g : Graph) (item : String)
    (h : has_item g item = false) : neighbours g item = [] := by
  rw [neighbours]
  cases hcase : alookup g item with
  | none => rfl
  | some d => rw [has_item, hcase] at h; simp at h

/-- C7: every lookup involving an item absent from a built graph returns an
empty container or zero, and (being total functions in this embedding, with
the absence guards taken in the code) none of them can raise. -/
theorem c7_absent_item_queries_empty (ops : List Op) (item b : String) (n : Int)
    (h : has_item (buildG ops) item = false) :
    neighbours (buildG ops) item = [] ∧
      edge_weight (buildG ops) item b = 0 ∧
      edge_weight (buildG ops) b item = 0 ∧
      recommend_items (buildG ops) item n = [] ∧
      bfs_related_items (buildG ops) item = [] ∧
      dfs_related_items (buildG ops) item = [] := by
  have hnone : alookup (buildG ops) item = none := by
    cases hcase : alookup (buildG ops) item with
    | none => rfl
    | some d => rw [has_item, hcase] at h; simp at h
  refine ⟨neighbours_eq_nil_of_absent _ _ h, ?_, ?_, ?_, ?_, ?_⟩
  · rw [edge_weight, hnone]
  · rw [edge_weight]
    cases hcase : alookup (buildG ops) b with
    | none => rfl
    | some d =>
      cases hdi : alookup d item with
      | none => simp [hdi]
      | some v =>
        exfalso
        have hW := wf_buildG ops
        have hmem : (item, v) ∈ d := alookup_mem d item v hdi
        have := hW.cl (b, d) (alookup_mem (buildG ops) b d hcase) (item, v) hmem
        rw [h] at this
        cases this
  · rw [recommend_items, if_neg (by rw [h]; simp)]
  · rw [bfs_related_items, if_neg (by rw [h]; simp)]
  · rw [dfs_related_items, if_neg (by rw [h]; simp)]

/-- Witness for C7 at a concrete built graph and the unknown item `"Z"`. -/
theorem c7_absent_item_queries_empty_witness :
    has_item (buildG [Op.addCo "A" "B"]) "Z" = false ∧
      (neighbours (buildG [Op.addCo "A" "B"]) "Z" = [] ∧
        edge_weight (buildG [Op.addCo "A" "B"]) "Z" "A" = 0 ∧
        edge_weight (buildG [Op.addCo "A" "B"]) "A" "Z" = 0 ∧
        recommend_items (buildG [Op.addCo "A" "B"]) "Z" 3 = [] ∧
        bfs_related_items (buildG [Op.addCo "A" "B"]) "Z" = [] ∧
        dfs_related_items (buildG [Op.addCo "A" "B"]) "Z" = []) :=
  ⟨by decide, c7_absent_item_queries_empty [Op.addCo "A" "B"] "Z" "A" 3 (by decide)⟩

/-! ## Claim C9 -/

theorem insertDescBy_map {α β : Type} (f : α → β) (w : β → Int) (x : α) :
    ∀ l : List α,
      insertDescBy w (f x) (l.map f) = (insertDescBy (fun a => w (f a)) x l).map f := by
  intro l
  induction l with
  | nil => rfl
  | cons y ys ih =>
    rw [List.map_cons, insertDescBy, insertDescBy]
    by_cases hc : w (f y) ≤ w (f x)
    · rw [if_pos hc, if_pos hc, List.map_cons, List.map_cons]
    · rw [if_neg hc, if_neg hc, List.map_cons, ih]

theorem pySortDescBy_map {α β : Type} (f : α → β) (w : β → Int) :
    ∀ l : List α,
      pySortDescBy w (l.map f) = (pySortDescBy (fun a => w (f a)) l).map f := by
  intro l
  induction l with
  | nil => rfl
  | cons y ys ih =>
    rw [List.map_cons, pySortDescBy, pySortDescBy, ih, insertDescBy_map]

theorem pyTake_map {α β : Type} (f : α → β) (k : Int) (l : List α) :
    pyTake k (l.map f) = (pyTake k l).map f := by
  rw [pyTake, pyTake, List.length_map]
  by_cases h : 0 ≤ k
  · rw [if_pos h, if_pos h, List.map_take]
  · rw [if_neg h, if_neg h, List.map_take]

theorem strongest_edges_eq_map (g : Graph) :
    strongest_edges g = (bundle_pairs g).map (fun pw => (pw.1.1, pw.1.2, pw.2)) := by
  rw [strongest_edges, bundle_pairs, List.map_flatMap]
  congr 1
  funext p
  rw [List.map_filterMap]
  congr 1
  funext q
  by_cases hc : pyLt p.1 q.1 = true
  · rw [if_pos hc, if_pos hc]; rfl
  · rw [if_neg hc, if_neg hc]; rfl

/-- C9: the custom partition sort coincides pointwise with the stable
descending sort by weight (the model of Python's built-in sort with
`reverse=True` on the weight key), and consequently the
`strongest_associations` path built on the built-in sort returns exactly the
`top_product_bundles` path built on `quick_sort_items`, up to flattening the
pair into a triple. -/
theorem c9_quick_sort_is_stable_descending :
    (∀ (α : Type) (pairs : List (α × Int)),
      quick_sort_items pairs = pySortDescBy (fun p => p.2) pairs) ∧
    (∀ (g : Graph) (n : Int),
      strongest_associations g n =
        (top_product_bundles g n).map (fun pw => (pw.1.1, pw.1.2, pw.2))) := by
  constructor
  · intro α pairs
    exact quick_sort_items_eq pairs
  · intro g n
    rw [strongest_associations, top_product_bundles, strongest_edges_eq_map,
      quick_sort_items_eq, pySortDescBy_map, pyTake_map]

/-! ## Claim C3 -/

/-- Counterexample for C3: on a built graph with two bundles, the Python
slice `[:k]` with the negative count `k = -1` drops only the last element, so
neither `top_product_bundles` nor `recommend_items` returns an empty list. -/
theorem c3_counterexample_negative_count :
    top_product_bundles
        (buildG [Op.addCo "a" "b", Op.addCo "a" "c", Op.addCo "a" "c"]) (-1) ≠ [] ∧
      recommend_items
        (buildG [Op.addCo "a" "b", Op.addCo "a" "c", Op.addCo "a" "c"]) "a" (-1) ≠ [] := by
  constructor
  · rw [top_product_bundles, quick_sort_items_eq]
    decide
  · rw [recommend_items]
    rw [quick_sort_items_eq]
    decide

/-- C3 as amended: a count of exactly 0 yields the empty list, but a negative
count `k` keeps all but the last `|k|` elements (Python slicing), so the
result is empty only when `|k|` is at least the number of available pairs
(respectively neighbours). -/
theorem c3_nonpositive_count_slicing (g : Graph) (item : String) (k : Int)
    (hk : k ≤ 0) :
    (top_product_bundles g k = [] ↔
      (k = 0 ∨ (bundle_pairs g).length ≤ (-k).toNat)) ∧
    (recommend_items g item k = [] ↔
      (k = 0 ∨ (neighbours g item).length ≤ (-k).toNat)) := by
  constructor
  · rw [top_product_bundles, pyTake_eq_nil_iff _ _ hk, length_quick_sort_items]
  · rw [recommend_items]
    by_cases hi : has_item g item = true
    · rw [if_pos (by rw [hi])]
      rw [pyTake_eq_nil_iff _ _ hk, length_quick_sort_items]
    · have hi' : has_item g item = false := by
        cases hcase : has_item g item
        · rfl
        · exact absurd hcase hi
      rw [if_neg (by rw [hi']; simp)]
      rw [neighbours_eq_nil_of_absent g item hi']
      simp only [List.length_nil, true_iff, Nat.zero_le, or_true]

/-- Witness for C3 as amended, at a concrete graph and `k = -1`. -/
theorem c3_nonpositive_count_slicing_witness :
    ((-1 : Int) ≤ 0) ∧
      ((top_product_bundles
          (buildG [Op.addCo "a" "b", Op.addCo "a" "c", Op.addCo "a" "c"]) (-1) = [] ↔
        ((-1 : Int) = 0 ∨
          (bundle_pairs
            (buildG [Op.addCo "a" "b", Op.addCo "a" "c", Op.addCo "a" "c"])).length
              ≤ (-(-1 : Int)).toNat)) ∧
      (recommend_items
          (buildG [Op.addCo "a" "b", Op.addCo "a" "c", Op.addCo "a" "c"]) "a" (-1) = [] ↔
        ((-1 : Int) = 0 ∨
          (neighbours (buildG [Op.addCo "a" "b", Op.addCo "a" "c", Op.addCo "a" "c"])
            "a").length ≤ (-(-1 : Int)).toNat))) :=
  ⟨by decide,
    c3_nonpositive_count_slicing
      (buildG [Op.addCo "a" "b", Op.addCo "a" "c", Op.addCo "a" "c"]) "a" (-1) (by decide)⟩

/-! ## Claim C4 -/

/-- Counterexample for C4: two records whose item labels differ only in
letter case load as two distinct items in the same basket — no case
normalization happens at ingestion. -/
theorem c4_counterexample_no_case_normalization :
    load_transactions [("1", "2024-01-01", "Milk"), ("1", "2024-01-01", "milk")]
        = [(("1", "2024-01-01"), ["Milk", "milk"])] ∧
      ("Milk" : String) ≠ "milk" := by
  constructor
  · decide
  · decide

theorem load_transactions_foldl_sources :
    ∀ (rows : List (String × String × String))
      (acc : List ((String × String) × List String))
      (key : String × String) (basket : List String),
      alookup (rows.foldl loadStep acc) key = some basket →
      ∀ item ∈ basket,
        (∃ b0, alookup acc key = some b0 ∧ item ∈ b0) ∨
        (item ≠ "" ∧ ∃ r ∈ rows,
          key = (pyStrip r.1, pyStrip r.2.1) ∧ item = pyStrip r.2.2) := by
  intro rows
  induction rows with
  | nil =>
    intro acc key basket h item hitem
    exact Or.inl ⟨basket, h, hitem⟩
  | cons r rows ih =>
    intro acc key basket h item hitem
    rw [List.foldl_cons] at h
    rcases ih (loadStep acc r) key basket h item hitem with hacc | hrow
    · obtain ⟨b0, hb0, hib0⟩ := hacc
      rw [loadStep] at hb0
      by_cases hblank : pyStrip r.2.2 ≠ ""
      · rw [if_pos hblank] at hb0
        by_cases hkey : key = (pyStrip r.1, pyStrip r.2.1)
        · rw [hkey, alookup_aset_self] at hb0
          injection hb0 with hb0'
          rw [← hb0'] at hib0
          rcases List.mem_append.mp hib0 with hin | hin
          · cases hold : alookup acc (pyStrip r.1, pyStrip r.2.1) with
            | none => rw [hold] at hin; simp at hin
            | some o =>
              left
              rw [hold] at hin
              exact ⟨o, by rw [hkey, hold], hin⟩
          · right
            rw [List.mem_singleton] at hin
            refine ⟨by rw [hin]; exact hblank, r, List.mem_cons_self _ _, hkey, hin⟩
        · rw [alookup_aset_ne _ _ _ _ hkey] at hb0
          exact Or.inl ⟨b0, hb0, hib0⟩
      · rw [if_neg hblank] at hb0
        exact Or.inl ⟨b0, hb0, hib0⟩
    · obtain ⟨hne, r', hr', hk, hi⟩ := hrow
      exact Or.inr ⟨hne, r', List.mem_cons_of_mem _ hr', hk, hi⟩

/-- C4 as amended: ingestion strips leading/trailing whitespace from the
customer identifier, the date and the item label, and discards records whose
stripped item label is empty — but it performs no case normalization: every
loaded item is exactly the stripped label of some input record, with letter
case preserved. -/
theorem c4_strip_discard_no_case_fold (rows : List (String × String × String))
    (key : String × String) (basket : List String)
    (h : alookup (load_transactions rows) key = some basket) :
    ∀ item ∈ basket, item ≠ "" ∧
      ∃ r ∈ rows, key = (pyStrip r.1, pyStrip r.2.1) ∧ item = pyStrip r.2.2 := by
  intro item hitem
  rw [load_transactions] at h
  rcases load_transactions_foldl_sources rows [] key basket h item hitem with hacc | hrow
  · obtain ⟨b0, hb0, -⟩ := hacc
    simp [alookup] at hb0
  · exact hrow

/-- Witness for C4 as amended, on one concrete whitespace-laden record. -/
theorem c4_strip_discard_no_case_fold_witness :
    alookup (load_transactions [(" 1 ", " 2024-01-01 ", " Whole Milk ")])
        ("1", "2024-01-01") = some ["Whole Milk"] ∧
      ("Whole Milk" ∈ (["Whole Milk"] : List String)) ∧
      ("Whole Milk" : String) ≠ "" ∧
      ∃ r ∈ [((" 1 " : String), (" 2024-01-01 " : String), (" Whole Milk " : String))],
        (("1", "2024-01-01") : String × String) = (pyStrip r.1, pyStrip r.2.1) ∧
        ("Whole Milk" : String) = pyStrip r.2.2 :=
  ⟨by decide, by decide,
    c4_strip_discard_no_case_fold [(" 1 ", " 2024-01-01 ", " Whole Milk ")]
      ("1", "2024-01-01") ["Whole Milk"] (by decide) "Whole Milk" (by decide)⟩

/-! ## Claim C8 -/

theorem mem_dedupFirst : ∀ (l : List String) (a : String), a ∈ dedupFirst l ↔ a ∈ l := by
  intro l
  induction l with
  | nil => intro a; simp [dedupFirst]
  | cons x xs ih =>
    intro a
    rw [dedupFirst]
    simp only [List.mem_cons, List.mem_filter]
    constructor
    · rintro (h | ⟨h1, h2⟩)
      · left; exact h
      · right; exact (ih a).mp h1
    · rintro (h | h)
      · left; exact h
      · by_cases hax : a = x
        · left; exact hax
        · right; exact ⟨(ih a).mpr h, by simp [hax]⟩

theorem nodup_dedupFirst : ∀ l : List String, (dedupFirst l).Nodup := by
  intro l
  induction l with
  | nil => simp [dedupFirst]
  | cons x xs ih =>
    rw [dedupFirst, List.nodup_cons]
    constructor
    · intro hmem
      rw [List.mem_filter] at hmem
      have := hmem.2
      simp at this
    · exact List.Nodup.filter _ ih

theorem mem_combinations2 {α : Type} :
    ∀ (l : List α) (p : α × α), p ∈ combinations2 l → p.1 ∈ l ∧ p.2 ∈ l := by
  intro l
  induction l with
  | nil => intro p hp; cases hp
  | cons x xs ih =>
    intro p hp
    rw [combinations2] at hp
    rcases List.mem_append.mp hp with hp | hp
    · obtain ⟨y, hy, hxy⟩ := List.mem_map.mp hp
      rw [← hxy]
      exact ⟨List.mem_cons_self _ _, List.mem_cons_of_mem _ hy⟩
    · obtain ⟨h1, h2⟩ := ih p hp
      exact ⟨List.mem_cons_of_mem _ h1, List.mem_cons_of_mem _ h2⟩

theorem countP_ext {α : Type} (p q : α → Bool) :
    ∀ l : List α, (∀ a ∈ l, p a = q a) → l.countP p = l.countP q := by
  intro l
  induction l with
  | nil => intro _; rfl
  | cons a rest ih =>
    intro h
    rw [List.countP_cons, List.countP_cons, h a (List.mem_cons_self _ _),
      ih (fun b hb => h b (List.mem_cons_of_mem _ hb))]

theorem countP_combinations2_zero (A B : String) :
    ∀ l : List String, (A ∉ l ∨ B ∉ l) →
      (combinations2 l).countP
        (fun p => decide ((A = p.1 ∧ B = p.2) ∨ (A = p.2 ∧ B = p.1))) = 0 := by
  intro l hl
  rw [List.countP_eq_zero]
  intro p hp
  have hmem := mem_combinations2 l p hp
  simp only [decide_eq_true_eq]
  rintro (⟨h1, h2⟩ | ⟨h1, h2⟩)
  · rcases hl with hA | hB
    · exact hA (by rw [h1]; exact hmem.1)
    · exact hB (by rw [h2]; exact hmem.2)
  · rcases hl with hA | hB
    · exact hA (by rw [h1]; exact hmem.2)
    · exact hB (by rw [h2]; exact hmem.1)

theorem countP_eq_one_of_mem_nodup (c : String) :
    ∀ xs : List String, xs.Nodup → c ∈ xs →
      xs.countP (fun y => decide (c = y)) = 1 := by
  intro xs
  induction xs with
  | nil => intro _ h; cases h
  | cons a rest ih =>
    intro hnd hc
    rw [List.countP_cons]
    rw [List.nodup_cons] at hnd
    by_cases hca : c = a
    · have hnotin : c ∉ rest := by rw [hca]; exact hnd.1
      have hzero : rest.countP (fun y => decide (c = y)) = 0 := by
        rw [List.countP_eq_zero]
        intro y hy
        simp only [decide_eq_true_eq]
        intro he
        rw [← he] at hy
        exact hnotin hy
      have hd : decide (c = a) = true := decide_eq_true hca
      simp [hzero, hd]
    · rcases List.mem_cons.mp hc with h | h
      · exact absurd h hca
      · rw [ih hnd.2 h]
        simp [hca]

theorem countP_combinations2_one (A B : String) (hAB : A ≠ B) :
    ∀ l : List String, l.Nodup → A ∈ l → B ∈ l →
      (combinations2 l).countP
        (fun p => decide ((A = p.1 ∧ B = p.2) ∨ (A = p.2 ∧ B = p.1))) = 1 := by
  intro l
  induction l with
  | nil => intro _ hA; cases hA
  | cons x xs ih =>
    intro hnd hA hB
    rw [List.nodup_cons] at hnd
    rw [combinations2, List.countP_append, List.countP_map]
    by_cases hxA : x = A
    · have hBxs : B ∈ xs := by
        rcases List.mem_cons.mp hB with h | h
        · exact absurd (h.trans hxA).symm hAB
        · exact h
      have hsec : xs.countP
          ((fun p => decide ((A = p.1 ∧ B = p.2) ∨ (A = p.2 ∧ B = p.1)))
            ∘ (fun y => (x, y)))
          = xs.countP (fun y => decide (B = y)) := by
        apply countP_ext
        intro y hy
        simp only [Function.comp_apply]
        rw [decide_eq_decide]
        constructor
        · rintro (⟨-, h2⟩ | ⟨h1, h2⟩)
          · exact h2
          · exact absurd (h2.trans hxA).symm hAB
        · intro h
          exact Or.inl ⟨hxA.symm, h⟩
      rw [hsec, countP_eq_one_of_mem_nodup B xs hnd.2 hBxs,
        countP_combinations2_zero A B xs (Or.inl (by rw [← hxA]; exact hnd.1))]
    · by_cases hxB : x = B
      · have hAxs : A ∈ xs := by
          rcases List.mem_cons.mp hA with h | h
          · exact absurd h.symm hxA
          · exact h
        have hsec : xs.countP
            ((fun p => decide ((A = p.1 ∧ B = p.2) ∨ (A = p.2 ∧ B = p.1)))
              ∘ (fun y => (x, y)))
            = xs.countP (fun y => decide (A = y)) := by
          apply countP_ext
          intro y hy
          simp only [Function.comp_apply]
          rw [decide_eq_decide]
          constructor
          · rintro (⟨h1, h2⟩ | ⟨h1, -⟩)
            · exact absurd (h1.trans hxB) hAB
            · exact h1
          · intro h
            exact Or.inr ⟨h, hxB.symm⟩
        rw [hsec, countP_eq_one_of_mem_nodup A xs hnd.2 hAxs,
          countP_combinations2_zero A B xs (Or.inr (by rw [← hxB]; exact hnd.1))]
      · have hAxs : A ∈ xs := by
          rcases List.mem_cons.mp hA with h | h
          · exact absurd h.symm hxA
          · exact h
        have hBxs : B ∈ xs := by
          rcases List.mem_cons.mp hB with h | h
          · exact absurd h.symm hxB
          · exact h
        have hsec : xs.countP
            ((fun p => decide ((A = p.1 ∧ B = p.2) ∨ (A = p.2 ∧ B = p.1)))
              ∘ (fun y => (x, y))) = 0 := by
          rw [List.countP_eq_zero]
          intro y hy
          simp only [Function.comp_apply, decide_eq_true_eq]
          rintro (⟨h1, -⟩ | ⟨-, h2⟩)
          · exact hxA h1.symm
          · exact hxB h2.symm
        rw [hsec, ih hnd.2 hAxs hBxs]

theorem edge_weight_foldl_add_item (A B : String) :
    ∀ (items : List String) (g : Graph),
      edge_weight (items.foldl add_item g) A B = edge_weight g A B := by
  intro items
  induction items with
  | nil => intro g; rfl
  | cons x xs ih =>
    intro g
    rw [List.foldl_cons, ih, edge_weight_add_item]

theorem edge_weight_foldl_addco (A B : String) (hAB : A ≠ B) :
    ∀ (ps : List (String × String)) (g : Graph),
      edge_weight (ps.foldl (fun h p => add_co_purchase h p.1 p.2) g) A B
        = edge_weight g A B
          + (ps.countP (fun p => decide ((A = p.1 ∧ B = p.2) ∨ (A = p.2 ∧ B = p.1))) : Int) := by
  intro ps
  induction ps with
  | nil => intro g; simp
  | cons p ps ih =>
    intro g
    simp only [List.foldl_cons]
    rw [ih, edge_weight_add_co, List.countP_cons]
    by_cases hp : (A = p.1 ∧ B = p.2) ∨ (A = p.2 ∧ B = p.1)
    · have hne : p.1 ≠ p.2 := by
        rcases hp with ⟨h1, h2⟩ | ⟨h1, h2⟩
        · intro he
          apply hAB
          rw [h1, he, ← h2]
        · intro he
          apply hAB
          rw [h1, ← he, ← h2]
      have hc : p.1 ≠ p.2 ∧ ((A = p.1 ∧ B = p.2) ∨ (A = p.2 ∧ B = p.1)) := ⟨hne, hp⟩
      rw [if_pos hc]
      have hd : decide ((A = p.1 ∧ B = p.2) ∨ (A = p.2 ∧ B = p.1)) = true :=
        decide_eq_true hp
      simp only [hd, if_true]
      push_cast
      ring
    · have hc : ¬ (p.1 ≠ p.2 ∧ ((A = p.1 ∧ B = p.2) ∨ (A = p.2 ∧ B = p.1))) :=
        fun hcon => hp hcon.2
      rw [if_neg hc]
      have hd : decide ((A = p.1 ∧ B = p.2) ∨ (A = p.2 ∧ B = p.1)) = false :=
        decide_eq_false hp
      simp only [hd, Bool.false_eq_true, if_false]
      push_cast
      ring

/-- C8: one basket increments the weight between two distinct items it
contains by exactly 1, however many times each of the two items occurs in the
basket — duplicates collapse before pair generation. -/
theorem c8_basket_duplicates_collapse (g : Graph) (basket : List String)
    (A B : String) (hAB : A ≠ B) (hA : A ∈ basket) (hB : B ∈ basket) :
    edge_weight (process_basket g basket) A B = edge_weight g A B + 1 := by
  rw [process_basket, edge_weight_foldl_addco A B hAB, edge_weight_foldl_add_item,
    countP_combinations2_one A B hAB (dedupFirst basket) (nodup_dedupFirst basket)
      ((mem_dedupFirst _ _).mpr hA) ((mem_dedupFirst _ _).mpr hB)]
  norm_num

/-- Witness for C8 on the spec's scenario basket `["bread", "bread", "milk"]`. -/
theorem c8_basket_duplicates_collapse_witness :
    (("bread" : String) ≠ "milk" ∧
        "bread" ∈ ["bread", "bread", "milk"] ∧ "milk" ∈ ["bread", "bread", "milk"]) ∧
      edge_weight (process_basket [] ["bread", "bread", "milk"]) "bread" "milk"
        = edge_weight ([] : Graph) "bread" "milk" + 1 :=
  ⟨⟨by decide, by decide, by decide⟩,
    c8_basket_duplicates_collapse [] ["bread", "bread", "milk"] "bread" "milk"
      (by decide) (by decide) (by decide)⟩

/-! ## Claim C2 -/

/-- All directed adjacency entries of the graph, as `(node, neighbour)` pairs
in iteration order. -/
def dirPairs (g : Graph) : List (String × String) :=
  g.flatMap (fun p => p.2.map (fun q => (p.1, q.1)))

theorem dirPairs_cons (p : String × NbrMap) (rest : Graph) :
    dirPairs (p :: rest) = p.2.map (fun q => (p.1, q.1)) ++ dirPairs rest := by
  rw [dirPairs, List.flatMap_cons, dirPairs]

theorem mem_dirPairs_fst :
    ∀ (g : Graph) (a b : String), (a, b) ∈ dirPairs g → a ∈ g.map Prod.fst := by
  intro g a b h
  rw [dirPairs, List.mem_flatMap] at h
  obtain ⟨p, hp, hmem⟩ := h
  obtain ⟨q, -, heq⟩ := List.mem_map.mp hmem
  injection heq with h1 h2
  rw [← h1]
  exact List.mem_map_of_mem Prod.fst hp

theorem dirPairs_nodup :
    ∀ g : Graph, (g.map Prod.fst).Nodup → (∀ p ∈ g, (p.2.map Prod.fst).Nodup) →
      (dirPairs g).Nodup := by
  intro g
  induction g with
  | nil => intro _ _; simp [dirPairs]
  | cons p rest ih =>
    intro hnk hinn
    rw [List.map_cons, List.nodup_cons] at hnk
    rw [dirPairs_cons, List.nodup_append]
    refine ⟨?_, ih hnk.2 (fun q hq => hinn q (List.mem_cons_of_mem _ hq)), ?_⟩
    · have hhead := hinn p (List.mem_cons_self _ _)
      have hinj : Function.Injective (fun k : String => (p.1, k)) := by
        intro a b hab
        simpa using hab
      have hmapped := List.Nodup.map hinj hhead
      rw [List.map_map] at hmapped
      exact hmapped
    · intro x hx hx2
      obtain ⟨q, -, heq⟩ := List.mem_map.mp hx
      obtain ⟨xa, xb⟩ := x
      injection heq with h1 h2
      exact hnk.1 (by rw [h1]; exact mem_dirPairs_fst rest xa xb hx2)

theorem mem_dirPairs (g : Graph) (hnk : (g.map Prod.fst).Nodup) (a b : String) :
    (a, b) ∈ dirPairs g ↔ has_edge g a b = true := by
  constructor
  · intro h
    rw [dirPairs, List.mem_flatMap] at h
    obtain ⟨p, hp, hmem⟩ := h
    obtain ⟨q, hq, heq⟩ := List.mem_map.mp hmem
    injection heq with h1 h2
    have hlook : alookup g a = some p.2 := by
      rw [← h1]
      exact alookup_of_mem_nodup g hnk p.1 p.2 hp
    rw [has_edge, hlook]
    exact (alookup_isSome_iff_mem p.2 b).mpr
      (by rw [← h2]; exact List.mem_map_of_mem Prod.fst hq)
  · intro h
    rw [has_edge_of_lookup] at h
    cases hga : alookup g a with
    | none =>
      rw [hga] at h
      simp [alookup] at h
    | some d =>
      rw [hga] at h
      simp only [Option.getD_some] at h
      cases hdb : alookup d b with
      | none => rw [hdb] at h; simp at h
      | some w =>
        rw [dirPairs, List.mem_flatMap]
        exact ⟨(a, d), alookup_mem g a d hga,
          List.mem_map.mpr ⟨(b, w), alookup_mem d b w hdb, rfl⟩⟩

theorem filterMap_if_sublist {α β : Type} (f : α → β) (c : α → Prop) [DecidablePred c] :
    ∀ l : List α, (l.filterMap (fun a => if c a then some (f a) else none)).Sublist (l.map f) := by
  intro l
  induction l with
  | nil => exact List.Sublist.refl []
  | cons a rest ih =>
    rw [List.filterMap_cons, List.map_cons]
    by_cases hc : c a
    · rw [if_pos hc]
      exact List.Sublist.cons₂ _ ih
    · rw [if_neg hc]
      exact List.Sublist.cons _ ih

theorem flatMap_sublist {α β : Type} (f f' : α → List β) (h : ∀ a, (f a).Sublist (f' a)) :
    ∀ l : List α, (l.flatMap f).Sublist (l.flatMap f') := by
  intro l
  induction l with
  | nil => exact List.Sublist.refl []
  | cons a rest ih =>
    rw [List.flatMap_cons, List.flatMap_cons]
    exact List.Sublist.append (h a) ih

/-- Counterexample for C2: on a built graph whose iteration order yields the
weight-1 pair before the weight-2 pair, `frequent_pairs` returns them in that
iteration order — the result is not sorted by descending weight. -/
theorem c2_counterexample_not_sorted :
    frequent_pairs (buildG [Op.addCo "a" "b", Op.addCo "a" "c", Op.addCo "a" "c"]) 1
        = [(("a", "b"), 1), (("a", "c"), 2)] ∧
      ¬ (pySortDescBy (fun p => p.2)
          (frequent_pairs (buildG [Op.addCo "a" "b", Op.addCo "a" "c", Op.addCo "a" "c"]) 1)
        = frequent_pairs (buildG [Op.addCo "a" "b", Op.addCo "a" "c", Op.addCo "a" "c"]) 1) := by
  constructor
  · decide
  · decide

/-- C2 as amended: `frequent_pairs` returns exactly the materialized
unordered edges (weight at least 1) whose weight reaches the threshold, each
exactly once and oriented with its lexicographically smaller label first; the
list is in adjacency iteration order, not sorted by descending weight. -/
theorem c2_frequent_pairs_exact_once (ops : List Op) (m : Int) :
    (∀ (a b : String) (w : Int),
      ((a, b), w) ∈ frequent_pairs (buildG ops) m ↔
        (a < b ∧ 1 ≤ w ∧ edge_weight (buildG ops) a b = w ∧ m ≤ w)) ∧
    ((frequent_pairs (buildG ops) m).map Prod.fst).Nodup := by
  have hW := wf_buildG ops
  constructor
  · intro a b w
    constructor
    · intro h
      rw [frequent_pairs, List.mem_flatMap] at h
      obtain ⟨p, hp, hmem⟩ := h
      rw [List.mem_filterMap] at hmem
      obtain ⟨q, hq, heq⟩ := hmem
      by_cases hc : pyLt p.1 q.1 = true ∧ m ≤ q.2
      · rw [if_pos hc] at heq
        injection heq with heqp
        injection heqp with heq1 heq2
        injection heq1 with ha hb
        have hlt : a < b := by
          rw [← ha, ← hb]
          exact (pyLt_iff p.1 q.1).mp hc.1
        have hlook : alookup (buildG ops) a = some p.2 := by
          rw [← ha]
          exact alookup_of_mem_nodup _ hW.nk p.1 p.2 hp
        have hinner : alookup p.2 b = some w := by
          rw [← hb, ← heq2]
          exact alookup_of_mem_nodup _ (hW.inn p hp) q.1 q.2 hq
        refine ⟨hlt, ?_, ?_, ?_⟩
        · rw [← heq2]
          exact hW.pos p hp q hq
        · rw [edge_weight_of_lookup, hlook]
          simp only [Option.getD_some]
          rw [hinner]
          rfl
        · rw [← heq2]
          exact hc.2
      · rw [if_neg hc] at heq
        cases heq
    · rintro ⟨hab, hw1, hwe, hmw⟩
      rw [edge_weight_of_lookup] at hwe
      cases hga : alookup (buildG ops) a with
      | none =>
        rw [hga] at hwe
        simp [alookup] at hwe
        omega
      | some d =>
        rw [hga] at hwe
        simp only [Option.getD_some] at hwe
        cases hdb : alookup d b with
        | none =>
          rw [hdb] at hwe
          simp only [Option.getD_none] at hwe
          omega
        | some v =>
          rw [hdb] at hwe
          simp only [Option.getD_some] at hwe
          rw [frequent_pairs, List.mem_flatMap]
          refine ⟨(a, d), alookup_mem _ a d hga, ?_⟩
          rw [List.mem_filterMap]
          refine ⟨(b, v), alookup_mem d b v hdb, ?_⟩
          rw [if_pos ⟨(pyLt_iff a b).mpr hab, by rw [hwe]; exact hmw⟩, hwe]
  · have hmapeq : (frequent_pairs (buildG ops) m).map Prod.fst
        = (buildG ops).flatMap (fun p => p.2.filterMap (fun q =>
            if pyLt p.1 q.1 = true ∧ m ≤ q.2 then some (p.1, q.1) else none)) := by
      rw [frequent_pairs, List.map_flatMap]
      congr 1
      funext p
      rw [List.map_filterMap]
      congr 1
      funext q
      by_cases hc : pyLt p.1 q.1 = true ∧ m ≤ q.2
      · rw [if_pos hc, if_pos hc]; rfl
      · rw [if_neg hc, if_neg hc]; rfl
    rw [hmapeq]
    apply List.Nodup.sublist
    · apply flatMap_sublist
      intro p
      exact filterMap_if_sublist (fun q => (p.1, q.1))
        (fun q => pyLt p.1 q.1 = true ∧ m ≤ q.2) p.2
    · exact dirPairs_nodup (buildG ops) hW.nk hW.inn

/-! ## Claim C6 -/

/-- The node set of the graph, as a finite set of labels. -/
def keysFinset (g : Graph) : Finset String := (g.map Prod.fst).toFinset

/-- The unordered item pairs with positive weight, represented by their
unique orientation with the smaller label first. -/
def ltPairsFinset (g : Graph) : Finset (String × String) :=
  (keysFinset g ×ˢ keysFinset g).filter (fun p => p.1 < p.2 ∧ 0 < edge_weight g p.1 p.2)

/-- The opposite orientation, used by the double-counting argument. -/
def gtPairsFinset (g : Graph) : Finset (String × String) :=
  (keysFinset g ×ˢ keysFinset g).filter (fun p => p.2 < p.1 ∧ 0 < edge_weight g p.1 p.2)

/-- The number of distinct unordered item pairs `{A, B}` with
`edge_weight(A, B) > 0`: every unordered pair of distinct items has exactly
one representative `(A, B)` with `A < B`. -/
def undirectedPairCount (g : Graph) : Nat := (ltPairsFinset g).card

theorem dirPairs_length (g : Graph) :
    (dirPairs g).length = (g.map (fun p => p.2.length)).sum := by
  rw [dirPairs, List.length_flatMap]
  have hfun : (List.length ∘ fun p : String × NbrMap => p.2.map (fun q => (p.1, q.1)))
      = fun p : String × NbrMap => p.2.length := by
    funext p
    simp [List.length_map]
  rw [hfun]

theorem dirPairs_toFinset (g : Graph) (hW : WF g)
    (hsem : ∀ a b, has_edge g a b = true ↔ 1 ≤ edge_weight g a b) :
    (dirPairs g).toFinset
      = (keysFinset g ×ˢ keysFinset g).filter (fun p => 0 < edge_weight g p.1 p.2) := by
  apply Finset.ext
  intro p
  obtain ⟨a, b⟩ := p
  rw [List.mem_toFinset, mem_dirPairs g hW.nk a b, Finset.mem_filter, Finset.mem_product]
  dsimp only
  constructor
  · intro h
    have hpos : 0 < edge_weight g a b := by
      have := (hsem a b).mp h
      omega
    refine ⟨⟨?_, ?_⟩, hpos⟩
    · rw [has_edge_of_lookup] at h
      rw [keysFinset, List.mem_toFinset]
      cases hga : alookup g a with
      | none => rw [hga] at h; simp [alookup] at h
      | some d =>
        exact (alookup_isSome_iff_mem g a).mp (by rw [hga]; rfl)
    · rw [has_edge_of_lookup] at h
      cases hga : alookup g a with
      | none => rw [hga] at h; simp [alookup] at h
      | some d =>
        rw [hga] at h
        simp only [Option.getD_some] at h
        cases hdb : alookup d b with
        | none => rw [hdb] at h; simp at h
        | some w =>
          rw [keysFinset, List.mem_toFinset]
          exact (has_item_iff_mem_keys g b).mp
            (hW.cl (a, d) (alookup_mem g a d hga) (b, w) (alookup_mem d b w hdb))
  · rintro ⟨-, hpos⟩
    rw [hsem a b]
    omega

theorem filter_pos_split (g : Graph) (hself : ∀ a, edge_weight g a a = 0) :
    (keysFinset g ×ˢ keysFinset g).filter (fun p => 0 < edge_weight g p.1 p.2)
      = ltPairsFinset g ∪ gtPairsFinset g := by
  apply Finset.ext
  intro p
  rw [Finset.mem_union, ltPairsFinset, gtPairsFinset, Finset.mem_filter,
    Finset.mem_filter, Finset.mem_filter]
  constructor
  · rintro ⟨hmem, hpos⟩
    have hne : p.1 ≠ p.2 := by
      intro heq
      rw [heq, hself p.2] at hpos
      exact absurd hpos (lt_irrefl 0)
    rcases lt_or_gt_of_ne hne with h | h
    · exact Or.inl ⟨hmem, h, hpos⟩
    · exact Or.inr ⟨hmem, h, hpos⟩
  · rintro (⟨hmem, -, hpos⟩ | ⟨hmem, -, hpos⟩)
    · exact ⟨hmem, hpos⟩
    · exact ⟨hmem, hpos⟩

theorem lt_gt_disjoint (g : Graph) : Disjoint (ltPairsFinset g) (gtPairsFinset g) := by
  rw [Finset.disjoint_left]
  intro p hpS hpT
  rw [ltPairsFinset, Finset.mem_filter] at hpS
  rw [gtPairsFinset, Finset.mem_filter] at hpT
  exact absurd hpT.2.1 (not_lt_of_gt hpS.2.1)

theorem gt_card_eq_lt_card (g : Graph)
    (hsym : ∀ a b, edge_weight g a b = edge_weight g b a) :
    (gtPairsFinset g).card = (ltPairsFinset g).card := by
  refine Finset.card_bij' (fun p _ => (p.2, p.1)) (fun p _ => (p.2, p.1))
    ?hmapto ?hmapfrom ?hlinv ?hrinv
  case hmapto =>
    intro p hp
    simp only [gtPairsFinset, ltPairsFinset, Finset.mem_filter, Finset.mem_product] at hp ⊢
    exact ⟨⟨hp.1.2, hp.1.1⟩, hp.2.1, by rw [hsym p.2 p.1]; exact hp.2.2⟩
  case hmapfrom =>
    intro p hp
    simp only [gtPairsFinset, ltPairsFinset, Finset.mem_filter, Finset.mem_product] at hp ⊢
    exact ⟨⟨hp.1.2, hp.1.1⟩, hp.2.1, by rw [hsym p.2 p.1]; exact hp.2.2⟩
  case hlinv =>
    intro p hp
    rfl
  case hrinv =>
    intro p hp
    rfl

/-- C6: on every built graph, `num_edges` (half the total inner-dict size)
equals the number of distinct unordered item pairs with positive weight, each
undirected edge counted exactly once; and any pair with positive weight
consists of two present items, so counting over the node set misses
nothing. -/
theorem c6_num_edges_counts_each_edge_once (ops : List Op) :
    num_edges (buildG ops) = undirectedPairCount (buildG ops) ∧
    (∀ a b : String, 0 < edge_weight (buildG ops) a b →
      has_item (buildG ops) a = true ∧ has_item (buildG ops) b = true) := by
  have hW := wf_buildG ops
  have hsem := (nonneg_and_hasEdge_buildG ops).2
  have hsym := symm_buildG ops
  have hself := self_zero_buildG ops
  constructor
  · have hnodup : (dirPairs (buildG ops)).Nodup := dirPairs_nodup _ hW.nk hW.inn
    have hcard1 : ((buildG ops).map (fun p => p.2.length)).sum
        = ((keysFinset (buildG ops) ×ˢ keysFinset (buildG ops)).filter
            (fun p => 0 < edge_weight (buildG ops) p.1 p.2)).card := by
      rw [← dirPairs_toFinset _ hW hsem, List.toFinset_card_of_nodup hnodup,
        dirPairs_length]
    have hsplit := filter_pos_split (buildG ops) hself
    have hdisj := lt_gt_disjoint (buildG ops)
    have hswap := gt_card_eq_lt_card (buildG ops) hsym
    have hunion := Finset.card_union_of_disjoint hdisj
    rw [num_edges, undirectedPairCount, hcard1, hsplit, hunion, hswap]
    omega
  · intro a b hpos
    have hhe : has_edge (buildG ops) a b = true := by
      rw [hsem a b]
      omega
    rw [has_edge_of_lookup] at hhe
    constructor
    · rw [has_item]
      cases hga : alookup (buildG ops) a with
      | none => rw [hga] at hhe; simp [alookup] at hhe
      | some d => rfl
    · cases hga : alookup (buildG ops) a with
      | none => rw [hga] at hhe; simp [alookup] at hhe
      | some d =>
        rw [hga] at hhe
        simp only [Option.getD_some] at hhe
        cases hdb : alookup d b with
        | none => rw [hdb] at hhe; simp at hhe
        | some w =>
          exact hW.cl (a, d) (alookup_mem _ a d hga) (b, w) (alookup_mem d b w hdb)
